import Mathlib

/-!
# Max-priority queue on a binary heap (`pq.c`)

A shallow embedding of `src/pq.c`.  A `void*` payload is a natural number (an
address, `NULL` being `0`), an `int` priority is an integer that is only ever
compared, and an array index is a natural number: every index the code computes
is non-negative and stays far below `INT_MAX` for arrays that fit in memory.
A heap-allocated `struct node` is never written after `pq_insert` fills it, so
the array of node pointers is modelled as the list of the nodes pointed to.
Every array access is checked: an operation returns `none` when a
`dynarray_get`, `dynarray_set` or `dynarray_remove` leaves `[0, length)`.
-/

/-- The `struct node` of `pq.c`: a payload pointer and its priority. -/
structure node where
  data : Nat
  priority : Int
deriving DecidableEq, Repr

/-- The null pointer, which `pq_max_dequeue` returns for an empty queue. -/
def NULL : Nat := 0

/-- Modelled from the spec: the dynamic array of `dynarray.h`, whose source is not
part of `pq.c`; a growable indexed sequence of element handles. -/
abbrev dynarray := List node

/-- Modelled from the spec: `dynarray_create()` returns the empty array. -/
def dynarray_create : dynarray := []

/-- Modelled from the spec: `dynarray_length(da)` is the current element count. -/
def dynarray_length (da : dynarray) : Nat := da.length

/-- Modelled from the spec: `dynarray_get(da, i)` returns the element at index `i`,
for `i` in `[0, length)`. -/
def dynarray_get (da : dynarray) (i : Nat) : Option node := da[i]?

/-- Modelled from the spec: `dynarray_set(da, i, v)` overwrites the element at
index `i`, for `i` in `[0, length)`. -/
def dynarray_set (da : dynarray) (i : Nat) (v : node) : Option dynarray :=
  if i < da.length then some (da.set i v) else none

/-- Modelled from the spec: `dynarray_insert(da, -1, v)`, the call with the end
marker, appends `v` as the new last element. -/
def dynarray_insert (da : dynarray) (v : node) : dynarray := da ++ [v]

/-- Modelled from the spec: `dynarray_remove(da, -1)`, the call with the end
marker, removes the last element and shrinks the length by one. -/
def dynarray_remove (da : dynarray) : Option dynarray :=
  if da.length = 0 then none else some da.dropLast

/-- The `struct pq` of `pq.c`: a queue owns one dynamic array. -/
structure pq where
  da : dynarray
deriving DecidableEq, Repr

/-- The function `pq_create` (lines 42-49): a queue over a fresh empty array. -/
def pq_create : pq := { da := dynarray_create }

/-- The function `pq_isempty` (lines 79-82): the C value of
`dynarray_length(pq->da) == 0`. -/
def pq_isempty (q : pq) : Int :=
  if dynarray_length q.da = 0 then 1 else 0

/-- The helper `swap_nodes` (lines 94-100): two reads, then two writes. -/
def swap_nodes (da : dynarray) (a b : Nat) : Option dynarray :=
  match dynarray_get da a with
  | none => none
  | some temp =>
    match dynarray_get da b with
    | none => none
    | some vb =>
      match dynarray_set da a vb with
      | none => none
      | some da1 => dynarray_set da1 b temp

/-- The helper `percolate_up` (lines 111-131), recursive on the parent index. -/
def percolate_up (da : dynarray) (index : Nat) : Option dynarray :=
  if index = 0 then some da
  else
    let parent := (index - 1) / 2
    match dynarray_get da index with
    | none => none
    | some current =>
      match dynarray_get da parent with
      | none => none
      | some parent_node =>
        if current.priority > parent_node.priority then
          match swap_nodes da index parent with
          | none => none
          | some da1 => percolate_up da1 parent
        else some da
termination_by index
decreasing_by omega

/-- Lines 145-173 of `percolate_down`: the value of `highest` after the two
comparisons, `current` being the node read at `index`.  A child pointer stays
`NULL` (here `none`) when its index is not below the length; below the length
`dynarray_get` returns the stored node. -/
def percolate_down_highest (da : dynarray) (index : Nat) (current : node) : Nat :=
  let left_index := 2 * index + 1
  let right_index := 2 * index + 2
  let highest := index
  let left_node : Option node :=
    if left_index < dynarray_length da then dynarray_get da left_index else none
  let right_node : Option node :=
    if right_index < dynarray_length da then dynarray_get da right_index else none
  let hc : Nat × node :=
    match left_node with
    | some l => if l.priority > current.priority then (left_index, l) else (highest, current)
    | none => (highest, current)
  match right_node with
  | some r => if r.priority > hc.2.priority then right_index else hc.1
  | none => hc.1

/-- The helper `percolate_down` (lines 142-182), recursive on the chosen child. -/
def percolate_down (da : dynarray) (index : Nat) : Option dynarray :=
  match hget : dynarray_get da index with
  | none => none
  | some current =>
    if hne : percolate_down_highest da index current ≠ index then
      match hswap : swap_nodes da index (percolate_down_highest da index current) with
      | none => none
      | some da1 => percolate_down da1 (percolate_down_highest da index current)
    else some da
termination_by dynarray_length da - index
decreasing_by
  have hidx : index < dynarray_length da := by
    unfold dynarray_get at hget
    unfold dynarray_length
    by_contra hcon
    rw [List.getElem?_eq_none (by omega)] at hget
    cases hget
  have hlen : dynarray_length da1 = dynarray_length da := by
    simp only [swap_nodes, dynarray_set] at hswap
    unfold dynarray_length
    repeat' split at hswap
    all_goals first
      | (cases hswap; done)
      | (rename_i hset _
         split at hset
         · cases hset; cases hswap; simp
         · cases hset)
  have hcases : percolate_down_highest da index current = index ∨
      percolate_down_highest da index current = 2 * index + 1 ∨
      percolate_down_highest da index current = 2 * index + 2 := by
    unfold percolate_down_highest
    simp only
    repeat' split
    all_goals simp
  rw [hlen]
  omega

/-- The function `pq_insert` (lines 202-215): append the new node, then
`percolate_up` from the last index. -/
def pq_insert (q : pq) (data : Nat) (priority : Int) : Option pq :=
  let new_node : node := { data := data, priority := priority }
  let da1 := dynarray_insert q.da new_node
  match percolate_up da1 (dynarray_length da1 - 1) with
  | none => none
  | some da2 => some { da := da2 }

/-- The function `pq_max` (lines 230-237): the payload of the node at index 0. -/
def pq_max (q : pq) : Option Nat :=
  match dynarray_get q.da 0 with
  | none => none
  | some max_node => some max_node.data

/-- The function `pq_max_priority` (lines 252-259): the priority of the node at
index 0. -/
def pq_max_priority (q : pq) : Option Int :=
  match dynarray_get q.da 0 with
  | none => none
  | some max_node => some max_node.priority

/-- The function `pq_max_dequeue` (lines 275-301): the returned pointer and the
queue after the call. -/
def pq_max_dequeue (q : pq) : Option (Nat × pq) :=
  if pq_isempty q ≠ 0 then some (NULL, q)
  else
    match dynarray_get q.da 0 with
    | none => none
    | some max_node =>
      match swap_nodes q.da 0 (dynarray_length q.da - 1) with
      | none => none
      | some da1 =>
        match dynarray_remove da1 with
        | none => none
        | some da2 =>
          if dynarray_length da2 > 0 then
            match percolate_down da2 0 with
            | none => none
            | some da3 => some (max_node.data, { da := da3 })
          else some (max_node.data, { da := da2 })


/-- The priority stored at index `i` of the array (`0` outside the array, where
no property below ever looks). -/
def priority_at (da : dynarray) (i : Nat) : Int :=
  match da[i]? with
  | some n => n.priority
  | none => 0

/-- The max-heap property of the spec: every non-root index `i` below the length
has `priority(parent(i)) >= priority(i)`, the parent of `i` being `(i-1)/2`. -/
def is_heap (da : dynarray) : Prop :=
  ∀ i, i < da.length → 0 < i → priority_at da ((i - 1) / 2) ≥ priority_at da i

instance is_heap_decidable (da : dynarray) : Decidable (is_heap da) := by
  unfold is_heap
  infer_instance

/-- The heap property everywhere except between `k` and its parent, the children
of `k` being already below the parent of `k`: what holds while `percolate_up`
carries the node at `k` towards the root. -/
def heap_except_up (da : dynarray) (k : Nat) : Prop :=
  (∀ i, i < da.length → 0 < i → i ≠ k →
      priority_at da ((i - 1) / 2) ≥ priority_at da i) ∧
  (∀ i, i < da.length → 0 < i → (i - 1) / 2 = k → 0 < k →
      priority_at da ((k - 1) / 2) ≥ priority_at da i)

/-- The heap property everywhere except between `k` and its children, the
children of `k` being already below the parent of `k`: what holds while
`percolate_down` carries the node at `k` towards the leaves. -/
def heap_except_down (da : dynarray) (k : Nat) : Prop :=
  (∀ i, i < da.length → 0 < i → (i - 1) / 2 ≠ k →
      priority_at da ((i - 1) / 2) ≥ priority_at da i) ∧
  (∀ i, i < da.length → 0 < i → (i - 1) / 2 = k → 0 < k →
      priority_at da ((k - 1) / 2) ≥ priority_at da i)

/-- The brute-force scan of the spec: the greatest priority found by one pass over
all stored elements, `none` for an empty array. -/
def scan_max : dynarray → Option Int
  | [] => none
  | x :: xs =>
    some (xs.foldl (fun m y => if y.priority > m then y.priority else m) x.priority)

/-- A stored element as the pair `(payload, priority)` given to `pq_insert`. -/
def node_pair (x : node) : Nat × Int := (x.data, x.priority)

/-- The two public mutating operations of the queue. -/
inductive pq_op where
  | insert (data : Nat) (priority : Int)
  | max_dequeue
deriving DecidableEq, Repr

/-- One mutating call: the queue after it (the value `pq_max_dequeue` returns is
dropped). -/
def apply_op (q : pq) : pq_op → Option pq
  | pq_op.insert d p => pq_insert q d p
  | pq_op.max_dequeue =>
    match pq_max_dequeue q with
    | none => none
    | some (_, q1) => some q1

/-- A sequence of mutating calls, first to last. -/
def run_ops (q : pq) : List pq_op → Option pq
  | [] => some q
  | o :: os =>
    match apply_op q o with
    | none => none
    | some q1 => run_ops q1 os

/-- The caller's loop `for each (data, priority): pq_insert(pq, data, priority)`. -/
def insert_all (q : pq) : List (Nat × Int) → Option pq
  | [] => some q
  | (d, p) :: rest =>
    match pq_insert q d p with
    | none => none
    | some q1 => insert_all q1 rest

/-- The caller's loop `while (!pq_isempty(pq))` that reads `pq_max_priority` and
then calls `pq_max_dequeue`, run for at most `fuel` rounds: the list of
`(returned payload, priority read)`, first removed first.  `none` when an
operation fails or the queue is not yet empty after `fuel` rounds. -/
def dequeue_all : Nat → pq → Option (List (Nat × Int))
  | 0, q => if pq_isempty q ≠ 0 then some [] else none
  | fuel + 1, q =>
    if pq_isempty q ≠ 0 then some []
    else
      match pq_max_priority q with
      | none => none
      | some p =>
        match pq_max_dequeue q with
        | none => none
        | some (v, q1) =>
          match dequeue_all fuel q1 with
          | none => none
          | some out => some ((v, p) :: out)

/-- The pointers returned by `n` successive calls of `pq_max_dequeue`, first call
first, and the queue after the last call. -/
def dequeue_n : Nat → pq → Option (List Nat × pq)
  | 0, q => some ([], q)
  | n + 1, q =>
    match pq_max_dequeue q with
    | none => none
    | some (v, q1) =>
      match dequeue_n n q1 with
      | none => none
      | some (vs, q2) => some (v :: vs, q2)

/-- The call `pq_max(pq)` with the queue made explicit: the pointer returned and
the queue after the call.  The body (lines 230-237) performs one `dynarray_get`
and no write. -/
def pq_max_call (q : pq) : Option (Nat × pq) :=
  match dynarray_get q.da 0 with
  | none => none
  | some max_node => some (max_node.data, q)

/-- The call `pq_max_priority(pq)` with the queue made explicit: the value
returned and the queue after the call.  The body (lines 252-259) performs one
`dynarray_get` and no write. -/
def pq_max_priority_call (q : pq) : Option (Int × pq) :=
  match dynarray_get q.da 0 with
  | none => none
  | some max_node => some (max_node.priority, q)

/-- The recursion of `percolate_up` (lines 111-131) cut off after `fuel` nested
calls: `none` when the budget is used up, otherwise `some` of what the call
produces. -/
def percolate_up_fuel : Nat → dynarray → Nat → Option (Option dynarray)
  | 0, _, _ => none
  | fuel + 1, da, index =>
    if index = 0 then some (some da)
    else
      let parent := (index - 1) / 2
      match dynarray_get da index with
      | none => some none
      | some current =>
        match dynarray_get da parent with
        | none => some none
        | some parent_node =>
          if current.priority > parent_node.priority then
            match swap_nodes da index parent with
            | none => some none
            | some da1 => percolate_up_fuel fuel da1 parent
          else some (some da)

/-- The recursion of `percolate_down` (lines 142-182) cut off after `fuel` nested
calls: `none` when the budget is used up, otherwise `some` of what the call
produces. -/
def percolate_down_fuel : Nat → dynarray → Nat → Option (Option dynarray)
  | 0, _, _ => none
  | fuel + 1, da, index =>
    match dynarray_get da index with
    | none => some none
    | some current =>
      if percolate_down_highest da index current ≠ index then
        match swap_nodes da index (percolate_down_highest da index current) with
        | none => some none
        | some da1 => percolate_down_fuel fuel da1 (percolate_down_highest da index current)
      else some (some da)

/-- One step of `percolate_down` (lines 142-178): the array after the swap with
the chosen child, before the recursive call; the array itself when no child is
chosen. -/
def percolate_down_step (da : dynarray) (index : Nat) : Option dynarray :=
  match dynarray_get da index with
  | none => none
  | some current =>
    if percolate_down_highest da index current ≠ index then
      swap_nodes da index (percolate_down_highest da index current)
    else some da

/-- Whether `root` is reached from `j` by at most `fuel` steps of the parent map
`i -> (i-1)/2`. -/
def in_subtree_fuel : Nat → Nat → Nat → Bool
  | 0, root, j => decide (j = root)
  | fuel + 1, root, j =>
    decide (j = root) || (decide (0 < j) && in_subtree_fuel fuel root ((j - 1) / 2))

/-- Index `j` lies in the subtree rooted at `root`: `root` is `j` or an ancestor
of `j` under the parent map `i -> (i-1)/2` (no index has more than `j`
ancestors). -/
def in_subtree (root j : Nat) : Prop := in_subtree_fuel j root j = true

instance in_subtree_decidable (root j : Nat) : Decidable (in_subtree root j) := by
  unfold in_subtree
  infer_instance

/-- The max-heap property inside the subtree rooted at `root`: every index of the
subtree other than `root` is below its parent. -/
def subtree_heap (da : dynarray) (root : Nat) : Prop :=
  ∀ j, j < da.length → in_subtree root j → j ≠ root →
    priority_at da ((j - 1) / 2) ≥ priority_at da j

instance subtree_heap_decidable (da : dynarray) (root : Nat) :
    Decidable (subtree_heap da root) := by
  unfold subtree_heap
  infer_instance

/-- The elements stored at the indices for which `keep` holds, in index order. -/
def elems_at (da : dynarray) (keep : Nat → Bool) : List node :=
  ((List.range da.length).filter keep).filterMap (fun i => da[i]?)

/-- The elements stored in the subtree rooted at `root`, in index order. -/
def subtree_elems (da : dynarray) (root : Nat) : List node :=
  elems_at da (fun j => decide (in_subtree root j))

/-- Array `da1` is `da` with the elements at the indices `a` and `b` exchanged. -/
def is_swap_of (da1 da : dynarray) (a b : Nat) : Prop :=
  da1.length = da.length ∧
  ∀ j, dynarray_get da1 j =
    if j = b then dynarray_get da a else if j = a then dynarray_get da b
    else dynarray_get da j

/-- Lines 145-173 of `percolate_down` with the two child reads checked: `none`
when a `dynarray_get` of a child fails, that is when a child is read at an
index outside `[0, length)`; otherwise `some` of the value of `highest` after
the two comparisons.  A child pointer is `NULL` (the inner `none`) when the
guard finds its index not below the length and no read is made. -/
def percolate_down_highest_checked (da : dynarray) (index : Nat) (current : node) :
    Option Nat :=
  let left_index := 2 * index + 1
  let right_index := 2 * index + 2
  let highest := index
  let left_read : Option (Option node) :=
    if left_index < dynarray_length da then
      match dynarray_get da left_index with
      | none => none
      | some l => some (some l)
    else some none
  let right_read : Option (Option node) :=
    if right_index < dynarray_length da then
      match dynarray_get da right_index with
      | none => none
      | some r => some (some r)
    else some none
  match left_read with
  | none => none
  | some left_node =>
    match right_read with
    | none => none
    | some right_node =>
      let hc : Nat × node :=
        match left_node with
        | some l =>
          if l.priority > current.priority then (left_index, l) else (highest, current)
        | none => (highest, current)
      match right_node with
      | some r => if r.priority > hc.2.priority then some right_index else some hc.1
      | none => some hc.1

/-- The helper `percolate_down` (lines 142-182) with every array access checked,
the two child reads included: `none` as soon as one access leaves
`[0, length)`. -/
def percolate_down_checked (da : dynarray) (index : Nat) : Option dynarray :=
  match hget : dynarray_get da index with
  | none => none
  | some current =>
    match hsel : percolate_down_highest_checked da index current with
    | none => none
    | some highest =>
      if hne : highest ≠ index then
        match hswap : swap_nodes da index highest with
        | none => none
        | some da1 => percolate_down_checked da1 highest
      else some da
termination_by dynarray_length da - index
decreasing_by
  have hidx : index < dynarray_length da := by
    unfold dynarray_get at hget
    unfold dynarray_length
    by_contra hcon
    rw [List.getElem?_eq_none (by omega)] at hget
    cases hget
  have hlen : dynarray_length da1 = dynarray_length da := by
    simp only [swap_nodes, dynarray_set] at hswap
    unfold dynarray_length
    repeat' split at hswap
    all_goals first
      | (cases hswap; done)
      | (rename_i hset _
         split at hset
         · cases hset; cases hswap; simp
         · cases hset)
  have hcases : highest = index ∨ highest = 2 * index + 1 ∨ highest = 2 * index + 2 := by
    unfold percolate_down_highest_checked at hsel
    simp only at hsel
    repeat' split at hsel
    all_goals first
      | (cases hsel; done)
      | (cases hsel; simp)
  rw [hlen]
  omega

/-- The function `pq_max_dequeue` (lines 275-301) with every array access
checked, the child reads of `percolate_down` included: the returned pointer and
the queue after the call, `none` as soon as one access leaves `[0, length)`. -/
def pq_max_dequeue_checked (q : pq) : Option (Nat × pq) :=
  if pq_isempty q ≠ 0 then some (NULL, q)
  else
    match dynarray_get q.da 0 with
    | none => none
    | some max_node =>
      match swap_nodes q.da 0 (dynarray_length q.da - 1) with
      | none => none
      | some da1 =>
        match dynarray_remove da1 with
        | none => none
        | some da2 =>
          if dynarray_length da2 > 0 then
            match percolate_down_checked da2 0 with
            | none => none
            | some da3 => some (max_node.data, { da := da3 })
          else some (max_node.data, { da := da2 })

theorem percolate_down_eq (da : dynarray) (index : Nat) :
    percolate_down da index =
      match dynarray_get da index with
      | none => none
      | some current =>
        if percolate_down_highest da index current ≠ index then
          match swap_nodes da index (percolate_down_highest da index current) with
          | none => none
          | some da1 => percolate_down da1 (percolate_down_highest da index current)
        else some da := by
  rw [percolate_down]
  split <;> rename_i h
  · simp [h]
  · simp only [h]
    split
    · split <;> rename_i h2 <;> simp [h2]
    · rfl


/-! ### The dynamic array and `swap_nodes` -/

theorem dynarray_get_of_lt {da : dynarray} {i : Nat} (h : i < da.length) :
    dynarray_get da i = some da[i] := by
  unfold dynarray_get
  exact List.getElem?_eq_getElem h

theorem dynarray_get_lt {da : dynarray} {i : Nat} {x : node}
    (h : dynarray_get da i = some x) : i < da.length := by
  unfold dynarray_get at h
  by_contra hcon
  rw [List.getElem?_eq_none (by omega)] at h
  cases h

theorem set_set_perm (da : dynarray) (a b : Nat) (ha : a < da.length)
    (hb : b < da.length) : ((da.set a da[b]).set b da[a]).Perm da := by
  rw [List.perm_iff_count]
  intro x
  have hb1 : b < (da.set a da[b]).length := by simpa using hb
  rw [List.count_set _ _ _ _ hb1, List.count_set _ _ _ _ ha]
  have h1 := List.boole_getElem_le_countP (fun y => y == x) da a ha
  have h2 := List.boole_getElem_le_countP (fun y => y == x) da b hb
  rw [← List.count_eq_countP] at h1 h2
  by_cases hab : a = b
  · subst hab
    simp only [List.getElem_set_self]
    split <;> simp_all
  · rw [List.getElem_set_ne hab]
    by_cases hax : da[a] = x <;> by_cases hbx : da[b] = x <;> simp_all

theorem swap_nodes_spec (da : dynarray) (a b : Nat) (ha : a < da.length)
    (hb : b < da.length) :
    ∃ da1, swap_nodes da a b = some da1 ∧ da1.length = da.length ∧
      (∀ i, da1[i]? = if i = b then da[a]? else if i = a then da[b]? else da[i]?) ∧
      da1.Perm da := by
  refine ⟨(da.set a da[b]).set b da[a], ?_, by simp, ?_, set_set_perm da a b ha hb⟩
  · simp [swap_nodes, dynarray_get_of_lt ha, dynarray_get_of_lt hb, dynarray_set, ha, hb]
  · intro i
    rw [List.getElem?_set, List.getElem?_set]
    by_cases hib : i = b
    · subst hib
      simp [hb, ha]
    · by_cases hia : i = a
      · subst hia
        simp [hib, Ne.symm hib, hb, ha]
      · simp [hib, hia, Ne.symm hib, Ne.symm hia]

theorem priority_at_of_lt {da : dynarray} {i : Nat} (h : i < da.length) :
    priority_at da i = da[i].priority := by
  unfold priority_at
  rw [List.getElem?_eq_getElem h]

theorem priority_at_congr {da da1 : dynarray} {i j : Nat} (h : da1[i]? = da[j]?) :
    priority_at da1 i = priority_at da j := by
  unfold priority_at
  rw [h]

theorem priority_at_swap {da da1 : dynarray} {a b : Nat}
    (h : ∀ i, da1[i]? = if i = b then da[a]? else if i = a then da[b]? else da[i]?)
    (i : Nat) :
    priority_at da1 i =
      if i = b then priority_at da a else if i = a then priority_at da b
      else priority_at da i := by
  have hi := h i
  split_ifs at hi ⊢ <;> exact priority_at_congr hi

/-! ### `percolate_up` -/

theorem percolate_up_some (k : Nat) : ∀ da : dynarray, k < da.length →
    ∃ da1, percolate_up da k = some da1 ∧ da1.length = da.length ∧ da1.Perm da := by
  induction k using Nat.strong_induction_on with
  | _ k ih =>
    intro da hk
    rw [percolate_up]
    by_cases h0 : k = 0
    · exact ⟨da, by simp [h0], rfl, List.Perm.refl _⟩
    · have hp : (k - 1) / 2 < da.length := by omega
      simp only [h0, if_false, dynarray_get_of_lt hk, dynarray_get_of_lt hp]
      split
      · obtain ⟨da1, hsw, hlen, -, hperm⟩ := swap_nodes_spec da k ((k - 1) / 2) hk hp
        simp only [hsw]
        obtain ⟨da2, h2, hl2, hp2⟩ := ih ((k - 1) / 2) (by omega) da1 (by omega)
        exact ⟨da2, h2, by omega, hp2.trans hperm⟩
      · exact ⟨da, rfl, rfl, List.Perm.refl _⟩

theorem percolate_up_heap (k : Nat) : ∀ da da2 : dynarray, k < da.length →
    heap_except_up da k → percolate_up da k = some da2 → is_heap da2 := by
  induction k using Nat.strong_induction_on with
  | _ k ih =>
    intro da da2 hk hinv hres
    obtain ⟨h1, h2⟩ := hinv
    rw [percolate_up] at hres
    by_cases h0 : k = 0
    · simp only [h0, if_true, Option.some.injEq] at hres
      subst hres
      intro i hi hpos
      exact h1 i hi hpos (by omega)
    · have hp : (k - 1) / 2 < da.length := by omega
      simp only [h0, if_false, dynarray_get_of_lt hk, dynarray_get_of_lt hp] at hres
      rw [← priority_at_of_lt hk, ← priority_at_of_lt hp] at hres
      split at hres
      · rename_i hgt
        obtain ⟨da1, hsw, hlen, hget, -⟩ := swap_nodes_spec da k ((k - 1) / 2) hk hp
        simp only [hsw] at hres
        have hpr := priority_at_swap hget
        refine ih ((k - 1) / 2) (by omega) da1 da2 (by omega) ⟨?_, ?_⟩ hres
        · intro i hi hpos hne
          have hi1 : i < da.length := by omega
          rw [hpr, hpr]
          by_cases hik : i = k
          · subst hik
            simp only [if_true, if_neg hne]
            omega
          · by_cases c1 : (i - 1) / 2 = (k - 1) / 2
            · have e1 := h1 i hi1 hpos hik
              rw [c1] at e1
              simp only [c1, if_true, if_neg hne, if_neg hik]
              omega
            · by_cases c2 : (i - 1) / 2 = k
              · have e2 := h2 i hi1 hpos c2 (by omega)
                simp only [if_neg c1, if_pos c2, if_neg hne, if_neg hik]
                exact e2
              · simp only [if_neg c1, if_neg c2, if_neg hne, if_neg hik]
                exact h1 i hi1 hpos hik
        · intro i hi hpos hpar hppos
          have hi1 : i < da.length := by omega
          have e3 := h1 ((k - 1) / 2) hp hppos (by omega)
          rw [hpr, hpr]
          rw [if_neg (by omega : ¬ ((k - 1) / 2 - 1) / 2 = (k - 1) / 2),
            if_neg (by omega : ¬ ((k - 1) / 2 - 1) / 2 = k),
            if_neg (by omega : ¬ i = (k - 1) / 2)]
          by_cases hik : i = k
          · rw [if_pos hik]
            exact e3
          · rw [if_neg hik]
            have e1 := h1 i hi1 hpos hik
            rw [hpar] at e1
            omega
      · rename_i hle
        simp only [Option.some.injEq] at hres
        subst hres
        intro i hi hpos
        by_cases hik : i = k
        · subst hik
          omega
        · exact h1 i hi hpos hik

/-! ### `percolate_down` -/

theorem percolate_down_highest_spec (da : dynarray) (k : Nat) (hk : k < da.length) :
    (percolate_down_highest da k da[k] = k ∧
      ∀ c, c < da.length → (c = 2 * k + 1 ∨ c = 2 * k + 2) →
        priority_at da c ≤ priority_at da k) ∨
    ((percolate_down_highest da k da[k] = 2 * k + 1 ∨
        percolate_down_highest da k da[k] = 2 * k + 2) ∧
      percolate_down_highest da k da[k] < da.length ∧
      priority_at da k < priority_at da (percolate_down_highest da k da[k]) ∧
      ∀ c, c < da.length → (c = 2 * k + 1 ∨ c = 2 * k + 2) →
        priority_at da c ≤ priority_at da (percolate_down_highest da k da[k])) := by
  unfold percolate_down_highest
  simp only [dynarray_length, dynarray_get]
  rw [priority_at_of_lt hk]
  by_cases hl : 2 * k + 1 < da.length
  · have pl := priority_at_of_lt hl
    by_cases hr : 2 * k + 2 < da.length
    · have pr := priority_at_of_lt hr
      simp only [hl, hr, if_true, List.getElem?_eq_getElem]
      split_ifs with c1 c2 c3 <;> dsimp only at *
      · right
        refine ⟨by omega, hr, by omega, ?_⟩
        rintro c hc (rfl | rfl) <;> omega
      · right
        refine ⟨by omega, hl, by omega, ?_⟩
        rintro c hc (rfl | rfl) <;> omega
      · right
        refine ⟨by omega, hr, by omega, ?_⟩
        rintro c hc (rfl | rfl) <;> omega
      · left
        refine ⟨rfl, ?_⟩
        rintro c hc (rfl | rfl) <;> omega
    · simp only [hl, hr, if_true, if_false, List.getElem?_eq_getElem]
      split_ifs with c1 <;> dsimp only at *
      · right
        refine ⟨by omega, hl, by omega, ?_⟩
        rintro c hc (rfl | rfl) <;> omega
      · left
        refine ⟨rfl, ?_⟩
        rintro c hc (rfl | rfl) <;> omega
  · have hr : ¬ 2 * k + 2 < da.length := by omega
    rw [if_neg hl, if_neg hr]
    left
    refine ⟨rfl, ?_⟩
    rintro c hc (rfl | rfl) <;> omega

theorem percolate_down_some (n : Nat) : ∀ (da : dynarray) (k : Nat),
    da.length - k ≤ n → k < da.length →
    ∃ da1, percolate_down da k = some da1 ∧ da1.length = da.length ∧ da1.Perm da := by
  induction n with
  | zero =>
    intro da k hn hk
    omega
  | succ n ih =>
    intro da k hn hk
    rw [percolate_down_eq, dynarray_get_of_lt hk]
    simp only
    rcases percolate_down_highest_spec da k hk with ⟨he, -⟩ | ⟨hc, hlt, -, -⟩
    · rw [he]
      exact ⟨da, by simp, rfl, List.Perm.refl _⟩
    · generalize percolate_down_highest da k da[k] = c at hc hlt
      have hne : c ≠ k := by omega
      rw [if_pos hne]
      obtain ⟨da1, hsw, hlen, -, hperm⟩ := swap_nodes_spec da k c hk hlt
      rw [hsw]
      simp only
      obtain ⟨da2, h2, hl2, hp2⟩ := ih da1 c (by omega) (by omega)
      exact ⟨da2, h2, by omega, hp2.trans hperm⟩

theorem percolate_down_heap (n : Nat) : ∀ (da da2 : dynarray) (k : Nat),
    da.length - k ≤ n → k < da.length → heap_except_down da k →
    percolate_down da k = some da2 → is_heap da2 := by
  induction n with
  | zero =>
    intro da da2 k hn hk
    omega
  | succ n ih =>
    intro da da2 k hn hk hinv hres
    obtain ⟨h1, h2⟩ := hinv
    rw [percolate_down_eq, dynarray_get_of_lt hk] at hres
    simp only at hres
    rcases percolate_down_highest_spec da k hk with ⟨he, hall⟩ | ⟨hc, hlt, hgt, hall⟩
    · rw [he] at hres
      simp only [ne_eq, not_true_eq_false, if_false, Option.some.injEq] at hres
      subst hres
      intro i hi hpos
      by_cases hpar : (i - 1) / 2 = k
      · rw [hpar]
        exact hall i hi (by omega)
      · exact h1 i hi hpos hpar
    · generalize percolate_down_highest da k da[k] = c at hc hlt hgt hall hres
      have hne : c ≠ k := by omega
      have hck : (c - 1) / 2 = k := by omega
      rw [if_pos hne] at hres
      obtain ⟨da1, hsw, hlen, hget, -⟩ := swap_nodes_spec da k c hk hlt
      rw [hsw] at hres
      simp only at hres
      have hpr := priority_at_swap hget
      refine ih da1 da2 c (by omega) (by omega) ⟨?_, ?_⟩ hres
      · intro i hi hpos hpar
        have hi1 : i < da.length := by omega
        rw [hpr, hpr, if_neg hpar]
        by_cases hic : i = c
        · rw [if_pos (by omega : (i - 1) / 2 = k), if_pos hic]
          omega
        · rw [if_neg hic]
          by_cases hik : i = k
          · have e2 := h2 c hlt (by omega) hck (by omega)
            rw [if_neg (by omega : ¬ (i - 1) / 2 = k), if_pos hik]
            rw [hik]
            exact e2
          · rw [if_neg hik]
            by_cases hpk : (i - 1) / 2 = k
            · rw [if_pos hpk]
              exact hall i hi1 (by omega)
            · rw [if_neg hpk]
              exact h1 i hi1 hpos hpk
      · intro i hi hpos hpar hcpos
        have hi1 : i < da.length := by omega
        have e1 := h1 i hi1 hpos (by omega)
        rw [hpr, hpr, hck, if_neg (Ne.symm hne), if_pos rfl,
          if_neg (by omega : ¬ i = c), if_neg (by omega : ¬ i = k)]
        rw [hpar] at e1
        exact e1

/-! ### `pq_insert` -/

theorem pq_insert_spec (q : pq) (d : Nat) (p : Int) :
    ∃ q1, pq_insert q d p = some q1 ∧ q1.da.length = q.da.length + 1 ∧
      q1.da.Perm ({ data := d, priority := p } :: q.da) := by
  obtain ⟨da2, h2, hlen, hperm⟩ :=
    percolate_up_some q.da.length (q.da ++ [{ data := d, priority := p }]) (by simp)
  refine ⟨{ da := da2 }, ?_, ?_, ?_⟩
  · simp [pq_insert, dynarray_insert, dynarray_length, h2]
  · simpa using hlen
  · exact hperm.trans (List.perm_append_comm)

theorem heap_except_up_append (da : dynarray) (x : node) (h : is_heap da) :
    heap_except_up (da ++ [x]) da.length := by
  constructor
  · intro i hi hpos hne
    have hi1 : i < da.length := by
      simp only [List.length_append, List.length_singleton] at hi
      omega
    have e := h i hi1 hpos
    have c1 : priority_at (da ++ [x]) i = priority_at da i :=
      priority_at_congr (List.getElem?_append_left hi1)
    have c2 : priority_at (da ++ [x]) ((i - 1) / 2) = priority_at da ((i - 1) / 2) :=
      priority_at_congr (List.getElem?_append_left (by omega))
    rw [c1, c2]
    exact e
  · intro i hi hpos hpar hk
    simp only [List.length_append, List.length_singleton] at hi
    omega

theorem pq_insert_heap (q q1 : pq) (d : Nat) (p : Int) (h : is_heap q.da)
    (hins : pq_insert q d p = some q1) : is_heap q1.da := by
  unfold pq_insert at hins
  simp only [dynarray_insert, dynarray_length, List.length_append, List.length_singleton,
    Nat.add_sub_cancel] at hins
  split at hins
  · cases hins
  · rename_i da2 hup
    cases hins
    exact percolate_up_heap q.da.length _ da2 (by simp)
      (heap_except_up_append q.da _ h) hup

/-! ### `pq_max_dequeue` -/

theorem swap_remove_spec (root : node) (rest : dynarray) :
    ∃ da1 da2, swap_nodes (root :: rest) 0 rest.length = some da1 ∧
      dynarray_remove da1 = some da2 ∧ da2.length = rest.length ∧ da2.Perm rest ∧
      ∀ i, 0 < i → i < rest.length → da2[i]? = (root :: rest)[i]? := by
  obtain ⟨da1, hsw, hlen, hget, hperm⟩ :=
    swap_nodes_spec (root :: rest) 0 rest.length (by simp) (by simp)
  have hlen1 : da1.length = rest.length + 1 := by simpa using hlen
  have hlast : da1.getLast? = some root := by
    rw [List.getLast?_eq_getElem?, hlen1, Nat.add_sub_cancel, hget, if_pos rfl,
      List.getElem?_cons_zero]
  have hsplit : da1.dropLast ++ [root] = da1 :=
    List.dropLast_append_getLast? root (by rw [hlast]; rfl)
  refine ⟨da1, da1.dropLast, hsw, ?_, ?_, ?_, ?_⟩
  · unfold dynarray_remove
    rw [if_neg (by omega)]
  · simp [hlen1]
  · have h3 : (da1.dropLast ++ [root]).Perm (root :: rest) := by
      rw [hsplit]
      exact hperm
    exact (List.perm_append_comm.symm.trans h3).cons_inv
  · intro i hpos hi
    rw [List.getElem?_dropLast, hlen1, Nat.add_sub_cancel, if_pos hi, hget,
      if_neg (by omega), if_neg (by omega)]

theorem pq_max_dequeue_spec (q : pq) (root : node) (rest : dynarray)
    (hq : q.da = root :: rest) :
    ∃ q1, pq_max_dequeue q = some (root.data, q1) ∧ q1.da.length = rest.length ∧
      q1.da.Perm rest := by
  obtain ⟨da1, da2, hsw, hrm, hlen, hperm, -⟩ := swap_remove_spec root rest
  unfold pq_max_dequeue pq_isempty
  simp only [hq, dynarray_length, List.length_cons, Nat.add_sub_cancel]
  rw [if_neg (by omega)]
  simp only [ne_eq, not_true_eq_false, if_false, dynarray_get, List.getElem?_cons_zero,
    hsw, hrm]
  by_cases hpos : da2.length > 0
  · obtain ⟨da3, hpd, hl3, hp3⟩ := percolate_down_some da2.length da2 0 (by omega) hpos
    rw [if_pos hpos, hpd]
    exact ⟨{ da := da3 }, rfl, by simp only; omega, hp3.trans hperm⟩
  · rw [if_neg hpos]
    exact ⟨{ da := da2 }, rfl, hlen, hperm⟩

theorem pq_max_dequeue_empty (q : pq) (hq : q.da = []) :
    pq_max_dequeue q = some (NULL, q) := by
  unfold pq_max_dequeue pq_isempty
  simp [hq, dynarray_length]

theorem pq_max_dequeue_heap (q q1 : pq) (r : Nat) (h : is_heap q.da)
    (hdq : pq_max_dequeue q = some (r, q1)) : is_heap q1.da := by
  cases hq : q.da with
  | nil =>
    rw [pq_max_dequeue_empty q hq] at hdq
    cases hdq
    exact h
  | cons root rest =>
    obtain ⟨da1, da2, hsw, hrm, hlen, -, hget⟩ := swap_remove_spec root rest
    unfold pq_max_dequeue pq_isempty at hdq
    simp only [hq, dynarray_length, List.length_cons, Nat.add_sub_cancel] at hdq
    rw [if_neg (by omega)] at hdq
    simp only [ne_eq, not_true_eq_false, if_false, dynarray_get, List.getElem?_cons_zero,
      hsw, hrm] at hdq
    by_cases hpos : da2.length > 0
    · rw [if_pos hpos] at hdq
      split at hdq
      · cases hdq
      · rename_i da3 hpd
        cases hdq
        refine percolate_down_heap da2.length da2 da3 0 (by omega) hpos ⟨?_, ?_⟩ hpd
        · intro i hi hposi hpar
          have e := h i (by rw [hq, List.length_cons]; omega) hposi
          have c1 : priority_at da2 i = priority_at q.da i := by
            apply priority_at_congr
            rw [hq]
            exact hget i hposi (by omega)
          have c2 : priority_at da2 ((i - 1) / 2) = priority_at q.da ((i - 1) / 2) := by
            apply priority_at_congr
            rw [hq]
            exact hget _ (by omega) (by omega)
          rw [c1, c2]
          exact e
        · intro i hi hposi hpar hk
          omega
    · rw [if_neg hpos] at hdq
      cases hdq
      intro i hi hposi
      simp only at hi
      omega

/-! ### The root of a heap -/

theorem is_heap_root_max (da : dynarray) (h : is_heap da) (i : Nat) :
    i < da.length → priority_at da i ≤ priority_at da 0 := by
  induction i using Nat.strong_induction_on with
  | _ i ih =>
    intro hi
    by_cases h0 : i = 0
    · rw [h0]
    · have e := h i hi (by omega)
      have e1 := ih ((i - 1) / 2) (by omega) (by omega)
      omega

theorem is_heap_mem_le (root : node) (rest : dynarray) (h : is_heap (root :: rest))
    (x : node) (hx : x ∈ root :: rest) : x.priority ≤ root.priority := by
  obtain ⟨i, hi, hxi⟩ := List.getElem_of_mem hx
  have e := is_heap_root_max (root :: rest) h i hi
  rw [priority_at_of_lt hi, priority_at_of_lt (by simp), hxi] at e
  simpa using e

theorem foldl_max_fixed (xs : dynarray) (m : Int) (h : ∀ y ∈ xs, y.priority ≤ m) :
    xs.foldl (fun m y => if y.priority > m then y.priority else m) m = m := by
  induction xs with
  | nil => rfl
  | cons y ys ih =>
    have hy := h y (List.mem_cons_self y ys)
    rw [List.foldl_cons, if_neg (by omega)]
    exact ih (fun z hz => h z (List.mem_cons_of_mem y hz))

theorem empty_is_heap : is_heap [] := by
  intro i hi
  simp at hi

theorem pq_max_dequeue_returns (q : pq) : ∃ r q1, pq_max_dequeue q = some (r, q1) := by
  cases hq : q.da with
  | nil => exact ⟨NULL, q, pq_max_dequeue_empty q hq⟩
  | cons root rest =>
    obtain ⟨q1, h1, -, -⟩ := pq_max_dequeue_spec q root rest hq
    exact ⟨root.data, q1, h1⟩

theorem run_ops_heap (ops : List pq_op) : ∀ q : pq, is_heap q.da →
    ∃ q1, run_ops q ops = some q1 ∧ is_heap q1.da := by
  induction ops with
  | nil =>
    intro q h
    exact ⟨q, rfl, h⟩
  | cons o os ih =>
    intro q h
    cases o with
    | insert d p =>
      obtain ⟨q1, hins, -, -⟩ := pq_insert_spec q d p
      obtain ⟨q2, hrun, hheap⟩ := ih q1 (pq_insert_heap q q1 d p h hins)
      refine ⟨q2, ?_, hheap⟩
      simp only [run_ops, apply_op, hins]
      exact hrun
    | max_dequeue =>
      obtain ⟨r, q1, h1⟩ := pq_max_dequeue_returns q
      obtain ⟨q2, hrun, hheap⟩ := ih q1 (pq_max_dequeue_heap q q1 r h h1)
      refine ⟨q2, ?_, hheap⟩
      simp only [run_ops, apply_op, h1]
      exact hrun

/-! ### Filling and draining a queue -/

theorem insert_all_spec (items : List (Nat × Int)) : ∀ q : pq, is_heap q.da →
    ∃ q1, insert_all q items = some q1 ∧ is_heap q1.da ∧
      (q1.da.map node_pair).Perm (items ++ q.da.map node_pair) ∧
      q1.da.length = q.da.length + items.length := by
  induction items with
  | nil =>
    intro q h
    exact ⟨q, rfl, h, List.Perm.refl _, rfl⟩
  | cons x rest ih =>
    intro q h
    obtain ⟨d, p⟩ := x
    obtain ⟨q1, hins, hlen, hperm⟩ := pq_insert_spec q d p
    obtain ⟨q2, hall, hheap, hperm2, hlen2⟩ := ih q1 (pq_insert_heap q q1 d p h hins)
    refine ⟨q2, ?_, hheap, ?_, ?_⟩
    · simp only [insert_all, hins]
      exact hall
    · have e1 : (q1.da.map node_pair).Perm ((d, p) :: q.da.map node_pair) := by
        simpa [node_pair] using hperm.map node_pair
      have e2 : (rest ++ q1.da.map node_pair).Perm
          (rest ++ (d, p) :: q.da.map node_pair) := List.Perm.append_left rest e1
      exact (hperm2.trans e2).trans List.perm_middle
    · rw [hlen2, hlen, List.length_cons]
      omega

theorem dequeue_all_spec (fuel : Nat) : ∀ q : pq, is_heap q.da → q.da.length ≤ fuel →
    ∃ out, dequeue_all fuel q = some out ∧ out.Perm (q.da.map node_pair) ∧
      (out.map Prod.snd).Pairwise (fun a b => a ≥ b) := by
  induction fuel with
  | zero =>
    intro q h hlen
    have hq : q.da = [] := List.eq_nil_of_length_eq_zero (by omega)
    refine ⟨[], ?_, by rw [hq]; exact List.Perm.refl _, List.Pairwise.nil⟩
    simp [dequeue_all, pq_isempty, dynarray_length, hq]
  | succ fuel ih =>
    intro q h hlen
    cases hq : q.da with
    | nil =>
      refine ⟨[], ?_, List.Perm.refl _, List.Pairwise.nil⟩
      simp [dequeue_all, pq_isempty, dynarray_length, hq]
    | cons root rest =>
      obtain ⟨q1, hdq, hlen1, hperm1⟩ := pq_max_dequeue_spec q root rest hq
      have hheap1 := pq_max_dequeue_heap q q1 root.data h hdq
      rw [hq] at h hlen
      obtain ⟨out, hout, hperm, hsorted⟩ := ih q1 hheap1
        (by rw [hlen1]; simp only [List.length_cons] at hlen; omega)
      have hpeek : pq_max_priority q = some root.priority := by
        simp [pq_max_priority, dynarray_get, hq]
      have hperm2 : out.Perm (rest.map node_pair) := hperm.trans (hperm1.map node_pair)
      refine ⟨(root.data, root.priority) :: out, ?_, ?_, ?_⟩
      · simp [dequeue_all, pq_isempty, dynarray_length, hq, hpeek, hdq, hout]
      · simpa [node_pair] using hperm2
      · rw [List.map_cons, List.pairwise_cons]
        refine ⟨?_, hsorted⟩
        intro b hb
        obtain ⟨y, hy, rfl⟩ := List.mem_map.mp hb
        obtain ⟨x, hx, rfl⟩ := List.mem_map.mp (hperm2.subset hy)
        exact is_heap_mem_le root rest h x (List.mem_cons_of_mem root hx)

theorem dequeue_n_spec (n : Nat) : ∀ q : pq, q.da.length = n →
    ∃ outs q1, dequeue_n n q = some (outs, q1) ∧
      outs.Perm (q.da.map node.data) ∧ q1.da = [] := by
  induction n with
  | zero =>
    intro q hlen
    have hq : q.da = [] := List.eq_nil_of_length_eq_zero hlen
    exact ⟨[], q, rfl, by rw [hq]; exact List.Perm.refl _, hq⟩
  | succ n ih =>
    intro q hlen
    cases hq : q.da with
    | nil =>
      rw [hq] at hlen
      simp at hlen
    | cons root rest =>
      rw [hq, List.length_cons] at hlen
      obtain ⟨q1, hdq, hlen1, hperm1⟩ := pq_max_dequeue_spec q root rest hq
      obtain ⟨outs, q2, hrec, hperm, hempty⟩ := ih q1 (by omega)
      refine ⟨root.data :: outs, q2, ?_, ?_, hempty⟩
      · simp [dequeue_n, hdq, hrec]
      · rw [List.map_cons]
        exact List.Perm.cons _ (hperm.trans (hperm1.map node.data))

theorem dynarray_get_zero {da : dynarray} {root : node}
    (h : dynarray_get da 0 = some root) : ∃ rest, da = root :: rest := by
  cases da with
  | nil => simp [dynarray_get] at h
  | cons x rest =>
    simp only [dynarray_get, List.getElem?_cons_zero, Option.some.injEq] at h
    exact ⟨rest, by rw [h]⟩

/-! ### The claims -/

/-- C1: the max-heap property is an invariant of the queue.  The queue returned by
`pq_create` satisfies it; from a queue that satisfies it, `pq_insert` with any
payload and priority, and `pq_max_dequeue`, return a queue that satisfies it
again; so it holds after any sequence of insert and dequeue calls on a fresh
queue. -/
theorem heap_invariant :
    is_heap pq_create.da ∧
    (∀ (q : pq) (d : Nat) (p : Int), is_heap q.da →
      ∃ q1, pq_insert q d p = some q1 ∧ is_heap q1.da) ∧
    (∀ q : pq, is_heap q.da →
      ∃ r q1, pq_max_dequeue q = some (r, q1) ∧ is_heap q1.da) ∧
    (∀ ops : List pq_op, ∃ q, run_ops pq_create ops = some q ∧ is_heap q.da) := by
  refine ⟨empty_is_heap, ?_, ?_, ?_⟩
  · intro q d p h
    obtain ⟨q1, hins, -, -⟩ := pq_insert_spec q d p
    exact ⟨q1, hins, pq_insert_heap q q1 d p h hins⟩
  · intro q h
    obtain ⟨r, q1, hdq⟩ := pq_max_dequeue_returns q
    exact ⟨r, q1, hdq, pq_max_dequeue_heap q q1 r h hdq⟩
  · intro ops
    exact run_ops_heap ops pq_create empty_is_heap

/-- Witness for C1 at the heap with priorities `9, 5, 7` and the insert of
priority `8`. -/
theorem heap_invariant_witness :
    is_heap [⟨1, 9⟩, ⟨2, 5⟩, ⟨3, 7⟩] ∧
    ∃ q1, pq_insert { da := [⟨1, 9⟩, ⟨2, 5⟩, ⟨3, 7⟩] } 4 8 = some q1 ∧ is_heap q1.da :=
  ⟨by decide, heap_invariant.2.1 { da := [⟨1, 9⟩, ⟨2, 5⟩, ⟨3, 7⟩] } 4 8 (by decide)⟩

/-- C2: on a non-empty queue that satisfies the max-heap property,
`pq_max_priority` returns the maximum of the stored priorities, the value the
brute-force scan `scan_max` finds; it is the priority of a stored element and
no stored priority exceeds it. -/
theorem pq_max_priority_eq_scan_max (q : pq) (hne : q.da ≠ []) (h : is_heap q.da) :
    pq_max_priority q = scan_max q.da ∧
    ∃ m, pq_max_priority q = some m ∧ (∃ x ∈ q.da, x.priority = m) ∧
      ∀ x ∈ q.da, x.priority ≤ m := by
  cases hq : q.da with
  | nil => exact absurd hq hne
  | cons root rest =>
    rw [hq] at h
    have hmax := is_heap_mem_le root rest h
    have hpeek : pq_max_priority q = some root.priority := by
      simp [pq_max_priority, dynarray_get, hq]
    refine ⟨?_, root.priority, hpeek, ⟨root, List.mem_cons_self _ _, rfl⟩, hmax⟩
    rw [hpeek]
    unfold scan_max
    simp only
    rw [foldl_max_fixed rest root.priority
      (fun y hy => hmax y (List.mem_cons_of_mem root hy))]

/-- Witness for C2 at the heap with priorities `9, 5, 7`. -/
theorem pq_max_priority_eq_scan_max_witness :
    pq_max_priority { da := [⟨1, 9⟩, ⟨2, 5⟩, ⟨3, 7⟩] } =
      scan_max [⟨1, 9⟩, ⟨2, 5⟩, ⟨3, 7⟩] ∧
    ∃ m, pq_max_priority { da := [⟨1, 9⟩, ⟨2, 5⟩, ⟨3, 7⟩] } = some m ∧
      (∃ x ∈ [(⟨1, 9⟩ : node), ⟨2, 5⟩, ⟨3, 7⟩], x.priority = m) ∧
      ∀ x ∈ [(⟨1, 9⟩ : node), ⟨2, 5⟩, ⟨3, 7⟩], x.priority ≤ m :=
  pq_max_priority_eq_scan_max { da := [⟨1, 9⟩, ⟨2, 5⟩, ⟨3, 7⟩] } (by decide) (by decide)

/-- C3: for every list of `(payload, priority)` pairs inserted one by one with
`pq_insert` into a fresh queue, dequeuing until the queue is empty (any number
of rounds from the number of pairs on suffices) removes the elements in
non-increasing order of priority, and what is removed is a permutation of what
was inserted, so the removed priorities are a permutation of the inserted ones;
for the inserted priorities `5, 1, 9, 3, 7`, whatever the payloads, the removed
priorities are `9, 7, 5, 3, 1` in that order. -/
theorem dequeue_all_sorted :
    (∀ items : List (Nat × Int), ∃ q, insert_all pq_create items = some q ∧
      ∀ fuel, items.length ≤ fuel → ∃ out, dequeue_all fuel q = some out ∧
        out.Perm items ∧ (out.map Prod.snd).Perm (items.map Prod.snd) ∧
        (out.map Prod.snd).Pairwise (fun a b => a ≥ b)) ∧
    (∀ d1 d2 d3 d4 d5 : Nat, ∃ q out,
      insert_all pq_create [(d1, 5), (d2, 1), (d3, 9), (d4, 3), (d5, 7)] = some q ∧
      dequeue_all 5 q = some out ∧ out.map Prod.snd = [9, 7, 5, 3, 1]) := by
  have general : ∀ items : List (Nat × Int), ∃ q, insert_all pq_create items = some q ∧
      ∀ fuel, items.length ≤ fuel → ∃ out, dequeue_all fuel q = some out ∧
        out.Perm items ∧ (out.map Prod.snd).Perm (items.map Prod.snd) ∧
        (out.map Prod.snd).Pairwise (fun a b => a ≥ b) := by
    intro items
    obtain ⟨q, hall, hheap, hperm, hlen⟩ := insert_all_spec items pq_create empty_is_heap
    refine ⟨q, hall, ?_⟩
    intro fuel hfuel
    have hlen0 : q.da.length = items.length := by
      simpa [pq_create, dynarray_create] using hlen
    obtain ⟨out, hout, hp, hsorted⟩ := dequeue_all_spec fuel q hheap (by omega)
    have hp2 : out.Perm items := by
      have e := hp.trans hperm
      simpa [pq_create, dynarray_create] using e
    exact ⟨out, hout, hp2, hp2.map Prod.snd, hsorted⟩
  refine ⟨general, ?_⟩
  intro d1 d2 d3 d4 d5
  obtain ⟨q, hall, hdrain⟩ := general [(d1, 5), (d2, 1), (d3, 9), (d4, 3), (d5, 7)]
  obtain ⟨out, hout, -, hperm, hsorted⟩ := hdrain 5 (by simp)
  refine ⟨q, out, hall, hout, ?_⟩
  have hperm2 : (out.map Prod.snd).Perm [9, 7, 5, 3, 1] :=
    hperm.trans (by simp only [List.map_cons, List.map_nil]; decide)
  have hs2 : ([9, 7, 5, 3, 1] : List Int).Pairwise (fun a b => a ≥ b) := by decide
  exact List.eq_of_perm_of_sorted hperm2 hsorted hs2

/-- Witness for C3: payloads `1..5` with the priorities `5, 1, 9, 3, 7`. -/
theorem dequeue_all_sorted_witness :
    ∃ q out, insert_all pq_create [(1, 5), (2, 1), (3, 9), (4, 3), (5, 7)] = some q ∧
      dequeue_all 5 q = some out ∧ out.map Prod.snd = [9, 7, 5, 3, 1] :=
  dequeue_all_sorted.2 1 2 3 4 5

/-- C4: on a non-empty queue, whose element at index 0 is `root`,
`pq_max_dequeue` returns the payload of `root`, the value `pq_max` returns; the
element removed from the array is `root`, whose priority is the value
`pq_max_priority` returns, and that priority is the maximum when the heap
property holds. -/
theorem pq_max_dequeue_removes_root (q : pq) (root : node)
    (hroot : dynarray_get q.da 0 = some root) :
    pq_max q = some root.data ∧ pq_max_priority q = some root.priority ∧
    ∃ q1, pq_max_dequeue q = some (root.data, q1) ∧ (root :: q1.da).Perm q.da ∧
      (is_heap q.da → ∀ x ∈ q.da, x.priority ≤ root.priority) := by
  obtain ⟨rest, hq⟩ := dynarray_get_zero hroot
  obtain ⟨q1, hdq, -, hperm⟩ := pq_max_dequeue_spec q root rest hq
  refine ⟨by simp [pq_max, hroot], by simp [pq_max_priority, hroot], q1, hdq, ?_, ?_⟩
  · rw [hq]
    exact List.Perm.cons root hperm
  · intro h
    rw [hq] at h ⊢
    exact is_heap_mem_le root rest h

/-- Witness for C4 at the queue with priorities `9, 5, 7`. -/
theorem pq_max_dequeue_removes_root_witness :
    pq_max { da := [⟨1, 9⟩, ⟨2, 5⟩, ⟨3, 7⟩] } = some 1 ∧
    pq_max_priority { da := [⟨1, 9⟩, ⟨2, 5⟩, ⟨3, 7⟩] } = some 9 ∧
    ∃ q1, pq_max_dequeue { da := [⟨1, 9⟩, ⟨2, 5⟩, ⟨3, 7⟩] } = some (1, q1) ∧
      ((⟨1, 9⟩ : node) :: q1.da).Perm [⟨1, 9⟩, ⟨2, 5⟩, ⟨3, 7⟩] ∧
      (is_heap [⟨1, 9⟩, ⟨2, 5⟩, ⟨3, 7⟩] →
        ∀ x ∈ [(⟨1, 9⟩ : node), ⟨2, 5⟩, ⟨3, 7⟩], x.priority ≤ 9) :=
  pq_max_dequeue_removes_root { da := [⟨1, 9⟩, ⟨2, 5⟩, ⟨3, 7⟩] } ⟨1, 9⟩ (by decide)

/-- C5: no element is lost or invented.  The array after `pq_insert` is a
permutation of the old elements plus the new pair; the array after
`pq_max_dequeue` on a non-empty queue is a permutation of the old elements with
the former root removed once; so after two inserts with the same priority both
new elements are stored, and a following dequeue removes only the root. -/
theorem no_element_lost :
    (∀ (q : pq) (d : Nat) (p : Int), ∃ q1, pq_insert q d p = some q1 ∧
      q1.da.Perm ({ data := d, priority := p } :: q.da)) ∧
    (∀ (q : pq) (root : node), dynarray_get q.da 0 = some root →
      ∃ q1, pq_max_dequeue q = some (root.data, q1) ∧ q1.da.Perm (q.da.erase root)) ∧
    (∀ (q : pq) (d1 d2 : Nat) (p : Int), ∃ q1 q2 root q3,
      pq_insert q d1 p = some q1 ∧ pq_insert q1 d2 p = some q2 ∧
      q2.da.Perm ({ data := d2, priority := p } :: { data := d1, priority := p } :: q.da) ∧
      dynarray_get q2.da 0 = some root ∧ pq_max_dequeue q2 = some (root.data, q3) ∧
      q3.da.Perm
        (({ data := d2, priority := p } :: { data := d1, priority := p } :: q.da).erase
          root)) := by
  have hdeq : ∀ (q : pq) (root : node), dynarray_get q.da 0 = some root →
      ∃ q1, pq_max_dequeue q = some (root.data, q1) ∧ q1.da.Perm (q.da.erase root) := by
    intro q root hroot
    obtain ⟨rest, hq⟩ := dynarray_get_zero hroot
    obtain ⟨q1, hdq, -, hperm⟩ := pq_max_dequeue_spec q root rest hq
    refine ⟨q1, hdq, ?_⟩
    rw [hq, List.erase_cons_head]
    exact hperm
  refine ⟨fun q d p => ?_, hdeq, fun q d1 d2 p => ?_⟩
  · obtain ⟨q1, hins, -, hperm⟩ := pq_insert_spec q d p
    exact ⟨q1, hins, hperm⟩
  · obtain ⟨q1, hins1, -, hperm1⟩ := pq_insert_spec q d1 p
    obtain ⟨q2, hins2, hlen2, hperm2⟩ := pq_insert_spec q1 d2 p
    have hp : q2.da.Perm
        ({ data := d2, priority := p } :: { data := d1, priority := p } :: q.da) :=
      hperm2.trans (List.Perm.cons _ hperm1)
    have hpos : 0 < q2.da.length := by omega
    obtain ⟨q3, hdq, hperm3⟩ := hdeq q2 q2.da[0] (dynarray_get_of_lt hpos)
    exact ⟨q1, q2, q2.da[0], q3, hins1, hins2, hp, dynarray_get_of_lt hpos, hdq,
      hperm3.trans (hp.erase _)⟩

/-- Witness for C5: the dequeue on the queue with priorities `9, 5, 7`. -/
theorem no_element_lost_witness :
    ∃ q1, pq_max_dequeue { da := [⟨1, 9⟩, ⟨2, 5⟩, ⟨3, 7⟩] } = some (1, q1) ∧
      q1.da.Perm ([(⟨1, 9⟩ : node), ⟨2, 5⟩, ⟨3, 7⟩].erase ⟨1, 9⟩) :=
  no_element_lost.2.1 { da := [⟨1, 9⟩, ⟨2, 5⟩, ⟨3, 7⟩] } ⟨1, 9⟩ (by decide)

theorem dequeue_n_append (k : Nat) : ∀ (q qk q2 : pq) (o1 o2 : List Nat) (m : Nat),
    dequeue_n k q = some (o1, qk) → dequeue_n m qk = some (o2, q2) →
    dequeue_n (k + m) q = some (o1 ++ o2, q2) := by
  induction k with
  | zero =>
    intro q qk q2 o1 o2 m h1 h2
    simp only [dequeue_n, Option.some.injEq, Prod.mk.injEq] at h1
    obtain ⟨e1, e2⟩ := h1
    subst e1
    subst e2
    rw [Nat.zero_add, List.nil_append]
    exact h2
  | succ k ih =>
    intro q qk q2 o1 o2 m h1 h2
    rw [dequeue_n] at h1
    cases hdq : pq_max_dequeue q with
    | none => simp [hdq] at h1
    | some r =>
      obtain ⟨v, qa⟩ := r
      cases hrec : dequeue_n k qa with
      | none => simp [hdq, hrec] at h1
      | some r2 =>
        obtain ⟨vs, qb⟩ := r2
        simp only [hdq, hrec, Option.some.injEq, Prod.mk.injEq] at h1
        obtain ⟨e1, e2⟩ := h1
        subst e1
        subst e2
        have e := ih qa qb q2 vs o2 m hrec h2
        rw [Nat.add_right_comm, dequeue_n]
        simp only [hdq, e, List.cons_append]

theorem dequeue_n_prefix (k : Nat) : ∀ q : pq, k ≤ q.da.length →
    ∃ o qk, dequeue_n k q = some (o, qk) ∧ o.length = k ∧
      qk.da.length = q.da.length - k := by
  induction k with
  | zero =>
    intro q _
    exact ⟨[], q, rfl, rfl, rfl⟩
  | succ k ih =>
    intro q hk
    cases hq : q.da with
    | nil =>
      rw [hq] at hk
      simp at hk
    | cons root rest =>
      rw [hq, List.length_cons] at hk
      obtain ⟨q1, hdq, hlen1, -⟩ := pq_max_dequeue_spec q root rest hq
      obtain ⟨o, qk, hrec, holen, hqlen⟩ := ih q1 (by omega)
      refine ⟨root.data :: o, qk, ?_, by simp [holen], ?_⟩
      · simp [dequeue_n, hdq, hrec]
      · rw [hqlen, hlen1, List.length_cons]
        omega

theorem dequeue_n_call (q : pq) (n k : Nat) (hlen : q.da.length = n) (hk : k < n)
    (outs : List Nat) (q1 : pq) (hall : dequeue_n n q = some (outs, q1)) :
    ∃ o qk root qk1, dequeue_n k q = some (o, qk) ∧ pq_isempty qk = 0 ∧
      dynarray_get qk.da 0 = some root ∧
      pq_max_dequeue qk = some (root.data, qk1) ∧
      dequeue_n (k + 1) q = some (o ++ [root.data], qk1) ∧
      outs[k]? = some root.data := by
  obtain ⟨o, qk, hpre, holen, hqlen⟩ := dequeue_n_prefix k q (by omega)
  cases hqk : qk.da with
  | nil =>
    rw [hqk] at hqlen
    simp at hqlen
    omega
  | cons root rest =>
    rw [hqk, List.length_cons] at hqlen
    obtain ⟨qk1, hdq, hlen1, -⟩ := pq_max_dequeue_spec qk root rest hqk
    obtain ⟨o3, q3, hrest, -, -⟩ := dequeue_n_spec (n - k - 1) qk1 (by omega)
    have hone : dequeue_n 1 qk = some ([root.data], qk1) := by
      simp [dequeue_n, hdq]
    have hmore : dequeue_n (n - k - 1 + 1) qk = some (root.data :: o3, q3) := by
      simp [dequeue_n, hdq, hrest]
    have hfull := dequeue_n_append k q qk q3 o (root.data :: o3) (n - k - 1 + 1) hpre hmore
    rw [(by omega : k + (n - k - 1 + 1) = n), hall] at hfull
    simp only [Option.some.injEq, Prod.mk.injEq] at hfull
    refine ⟨o, qk, root, qk1, hpre, ?_, ?_, hdq,
      dequeue_n_append k q qk qk1 o [root.data] 1 hpre hone, ?_⟩
    · simp [pq_isempty, dynarray_length, hqk]
    · simp [dynarray_get, hqk]
    · rw [hfull.1, List.getElem?_append_right (by omega), holen, Nat.sub_self,
        List.getElem?_cons_zero]

/-- C6, as the code has it: after any `N` inserts into a fresh queue the queue
holds the `N` inserted pairs, and each of the next `N` calls of
`pq_max_dequeue` runs on a queue that is not empty and returns the payload of
the element stored at index 0 at that moment, never the result of the empty
path; the `N` results are the inserted payloads, each once; a result is `NULL`
only when that stored payload is `NULL`, so none is when no inserted payload is
`NULL`; and after the `N`-th call `pq_isempty` returns 1. -/
theorem insert_then_dequeue_n (items : List (Nat × Int)) :
    ∃ q, insert_all pq_create items = some q ∧
      dynarray_length q.da = items.length ∧
      (q.da.map node_pair).Perm items ∧
      ∃ outs q1, dequeue_n items.length q = some (outs, q1) ∧
        outs.length = items.length ∧
        (∀ k, k < items.length →
          ∃ o qk root qk1, dequeue_n k q = some (o, qk) ∧ pq_isempty qk = 0 ∧
            dynarray_get qk.da 0 = some root ∧
            pq_max_dequeue qk = some (root.data, qk1) ∧
            dequeue_n (k + 1) q = some (o ++ [root.data], qk1) ∧
            outs[k]? = some root.data) ∧
        outs.Perm (items.map Prod.fst) ∧
        ((∀ x ∈ items, x.1 ≠ NULL) → ∀ v ∈ outs, v ≠ NULL) ∧
        pq_isempty q1 = 1 := by
  obtain ⟨q, hall, -, hperm, hlen⟩ := insert_all_spec items pq_create empty_is_heap
  have hlen0 : q.da.length = items.length := by
    simpa [pq_create, dynarray_create] using hlen
  have hperm0 : (q.da.map node_pair).Perm items := by
    simpa [pq_create, dynarray_create] using hperm
  obtain ⟨outs, q1, hdq, hp, hempty⟩ := dequeue_n_spec items.length q hlen0
  have hp2 : outs.Perm (items.map Prod.fst) := by
    have e := hperm0.map Prod.fst
    rw [List.map_map] at e
    exact hp.trans e
  refine ⟨q, hall, hlen0, hperm0, outs, q1, hdq, ?_, ?_, hp2, ?_, ?_⟩
  · rw [hp2.length_eq, List.length_map]
  · intro k hk
    exact dequeue_n_call q items.length k hlen0 hk outs q1 hdq
  · intro hnn v hv
    obtain ⟨x, hx, rfl⟩ := List.mem_map.mp (hp2.subset hv)
    exact hnn x hx
  · simp [pq_isempty, dynarray_length, hempty]

/-- Witness for C6: two inserts, the second call of `pq_max_dequeue` (`k = 1`). -/
theorem insert_then_dequeue_n_witness :
    ∃ q, insert_all pq_create [(1, 5), (2, 8)] = some q ∧
      dynarray_length q.da = 2 ∧
      (q.da.map node_pair).Perm [(1, 5), (2, 8)] ∧
      ∃ outs q1, dequeue_n 2 q = some (outs, q1) ∧
        outs.length = 2 ∧
        (∀ k, k < 2 →
          ∃ o qk root qk1, dequeue_n k q = some (o, qk) ∧ pq_isempty qk = 0 ∧
            dynarray_get qk.da 0 = some root ∧
            pq_max_dequeue qk = some (root.data, qk1) ∧
            dequeue_n (k + 1) q = some (o ++ [root.data], qk1) ∧
            outs[k]? = some root.data) ∧
        outs.Perm [1, 2] ∧
        ((∀ x ∈ [((1 : Nat), (5 : Int)), (2, 8)], x.1 ≠ NULL) → ∀ v ∈ outs, v ≠ NULL) ∧
        pq_isempty q1 = 1 :=
  insert_then_dequeue_n [(1, 5), (2, 8)]

/-- Counterexample to C6 as stated: after the single insert of a `NULL` payload
with priority 7, the one following `pq_max_dequeue` returns `NULL`. -/
theorem dequeue_returns_null_payload :
    insert_all pq_create [(NULL, 7)] = some { da := [⟨NULL, 7⟩] } ∧
    dequeue_n 1 { da := [⟨NULL, 7⟩] } = some ([NULL], { da := [] }) := by
  constructor
  · simp [insert_all, pq_insert, pq_create, dynarray_create, dynarray_insert,
      dynarray_length, percolate_up]
  · simp [dequeue_n, pq_max_dequeue, pq_isempty, dynarray_length, dynarray_get,
      swap_nodes, dynarray_set, dynarray_remove]

/-- C7: the array length after `pq_insert` is the previous length plus 1, and on
a non-empty queue the array length after `pq_max_dequeue` is the previous
length minus 1. -/
theorem length_accounting :
    (∀ (q : pq) (d : Nat) (p : Int), ∃ q1, pq_insert q d p = some q1 ∧
      dynarray_length q1.da = dynarray_length q.da + 1) ∧
    (∀ q : pq, pq_isempty q = 0 → ∃ r q1, pq_max_dequeue q = some (r, q1) ∧
      dynarray_length q1.da = dynarray_length q.da - 1 ∧
      dynarray_length q1.da + 1 = dynarray_length q.da) := by
  constructor
  · intro q d p
    obtain ⟨q1, hins, hlen, -⟩ := pq_insert_spec q d p
    exact ⟨q1, hins, hlen⟩
  · intro q hne
    cases hq : q.da with
    | nil => simp [pq_isempty, dynarray_length, hq] at hne
    | cons root rest =>
      obtain ⟨q1, hdq, hlen, -⟩ := pq_max_dequeue_spec q root rest hq
      refine ⟨root.data, q1, hdq, ?_, ?_⟩ <;> simp [dynarray_length, hlen]

/-- Witness for C7: the dequeue on the queue with priorities `9, 5, 7`. -/
theorem length_accounting_witness :
    ∃ r q1, pq_max_dequeue { da := [⟨1, 9⟩, ⟨2, 5⟩, ⟨3, 7⟩] } = some (r, q1) ∧
      dynarray_length q1.da = 3 - 1 ∧ dynarray_length q1.da + 1 = 3 :=
  length_accounting.2 { da := [⟨1, 9⟩, ⟨2, 5⟩, ⟨3, 7⟩] } (by decide)

/-- C8: `pq_max_dequeue` on an empty queue, in particular on the queue
`pq_create` returns, does not fail: it returns `NULL` and the queue is
unchanged and still empty. -/
theorem pq_max_dequeue_on_empty :
    (∀ q : pq, pq_isempty q = 1 →
      pq_max_dequeue q = some (NULL, q) ∧ pq_isempty q = 1) ∧
    pq_isempty pq_create = 1 ∧
    pq_max_dequeue pq_create = some (NULL, pq_create) := by
  refine ⟨?_, by decide, pq_max_dequeue_empty pq_create rfl⟩
  intro q hq
  refine ⟨?_, hq⟩
  apply pq_max_dequeue_empty
  unfold pq_isempty dynarray_length at hq
  split at hq
  · rename_i h0
    exact List.eq_nil_of_length_eq_zero h0
  · simp at hq

/-- Witness for C8 at the empty queue. -/
theorem pq_max_dequeue_on_empty_witness :
    pq_max_dequeue { da := [] } = some (NULL, { da := [] }) ∧
    pq_isempty { da := [] } = 1 :=
  pq_max_dequeue_on_empty.1 { da := [] } (by decide)

/-- C9: `pq_isempty` returns 1 when the length of the backing array is zero and 0
otherwise; the queue `pq_create` returns is empty, and the queue after a
`pq_insert` is not. -/
theorem pq_isempty_iff :
    (∀ q : pq, (pq_isempty q = 1 ↔ dynarray_length q.da = 0) ∧
      (pq_isempty q = 0 ↔ dynarray_length q.da ≠ 0) ∧
      (pq_isempty q = 1 ∨ pq_isempty q = 0)) ∧
    pq_isempty pq_create = 1 ∧
    (∀ (q : pq) (d : Nat) (p : Int), ∃ q1, pq_insert q d p = some q1 ∧
      pq_isempty q1 = 0) := by
  refine ⟨?_, by decide, ?_⟩
  · intro q
    unfold pq_isempty
    split <;> simp_all
  · intro q d p
    obtain ⟨q1, hins, hlen, -⟩ := pq_insert_spec q d p
    refine ⟨q1, hins, ?_⟩
    unfold pq_isempty dynarray_length
    rw [if_neg (by omega)]

/-- C10: equal priorities do not trigger a swap on insert.  On a queue of length
`n >= 1`, when the new priority is less than or equal to the priority stored
at index `(n-1)/2`, the array after `pq_insert` is the old array with the new
element appended at index `n`. -/
theorem pq_insert_no_swap (q : pq) (d : Nat) (p : Int)
    (hlen : 1 ≤ dynarray_length q.da)
    (hle : p ≤ priority_at q.da ((dynarray_length q.da - 1) / 2)) :
    pq_insert q d p = some { da := q.da ++ [{ data := d, priority := p }] } := by
  unfold dynarray_length at hlen hle
  have hpar : (q.da.length - 1) / 2 < q.da.length := by omega
  have hget1 : dynarray_get (q.da ++ [{ data := d, priority := p }]) q.da.length =
      some { data := d, priority := p } := by
    simp [dynarray_get]
  have hget2 : dynarray_get (q.da ++ [{ data := d, priority := p }])
      ((q.da.length - 1) / 2) = some q.da[(q.da.length - 1) / 2] := by
    unfold dynarray_get
    rw [List.getElem?_append_left hpar, List.getElem?_eq_getElem hpar]
  rw [priority_at_of_lt hpar] at hle
  unfold pq_insert
  simp only [dynarray_insert, dynarray_length, List.length_append, List.length_singleton,
    Nat.add_sub_cancel]
  rw [percolate_up, if_neg (by omega)]
  simp only [hget1, hget2]
  rw [if_neg (by simp only [gt_iff_lt]; omega)]

/-- Witness for C10: a second element with the priority of the root. -/
theorem pq_insert_no_swap_witness :
    pq_insert { da := [⟨1, 5⟩] } 2 5 = some { da := [⟨1, 5⟩] ++ [⟨2, 5⟩] } :=
  pq_insert_no_swap { da := [⟨1, 5⟩] } 2 5 (by decide) (by decide)

/-! ### Further facts for the remaining claims -/

theorem percolate_up_root (k : Nat) : ∀ da da2 : dynarray, k < da.length →
    percolate_up da k = some da2 →
    da2[0]? = da[0]? ∨ (da2[0]? = da[k]? ∧ priority_at da k > priority_at da 0) := by
  induction k using Nat.strong_induction_on with
  | _ k ih =>
    intro da da2 hk hres
    rw [percolate_up] at hres
    by_cases h0 : k = 0
    · simp only [h0, if_true, Option.some.injEq] at hres
      subst hres
      exact Or.inl rfl
    · have hp : (k - 1) / 2 < da.length := by omega
      simp only [h0, if_false, dynarray_get_of_lt hk, dynarray_get_of_lt hp] at hres
      rw [← priority_at_of_lt hk, ← priority_at_of_lt hp] at hres
      split at hres
      · rename_i hgt
        obtain ⟨da1, hsw, hlen, hget, -⟩ := swap_nodes_spec da k ((k - 1) / 2) hk hp
        simp only [hsw] at hres
        have hpr := priority_at_swap hget
        have hrec := ih ((k - 1) / 2) (by omega) da1 da2 (by omega) hres
        have hpar : da1[(k - 1) / 2]? = da[k]? := by
          rw [hget, if_pos rfl]
        by_cases hp0 : (k - 1) / 2 = 0
        · right
          rw [hp0] at hpar hgt
          refine ⟨?_, hgt⟩
          rcases hrec with e | ⟨e, -⟩
          · rw [e, hpar]
          · rw [e, hp0, hpar]
        · have h00 : da1[0]? = da[0]? := by
            rw [hget, if_neg (Ne.symm hp0), if_neg (Ne.symm h0)]
          rcases hrec with e | ⟨e, egt⟩
          · left
            rw [e, h00]
          · right
            refine ⟨by rw [e, hpar], ?_⟩
            rw [hpr, hpr, if_pos rfl, if_neg (Ne.symm hp0), if_neg (Ne.symm h0)] at egt
            exact egt
      · simp only [Option.some.injEq] at hres
        subst hres
        exact Or.inl rfl

/-- C11: on a non-empty queue, whose element at index 0 is `root`, `pq_max`
returns the payload of `root` and `pq_max_priority` returns its priority, and
the queue after either call is the queue before it: same length and the same
element at every index. -/
theorem pq_max_reads_root (q : pq) (root : node)
    (hroot : dynarray_get q.da 0 = some root) :
    pq_max q = some root.data ∧ pq_max_priority q = some root.priority ∧
    (∃ q1, pq_max_call q = some (root.data, q1) ∧
      dynarray_length q1.da = dynarray_length q.da ∧
      (∀ i, dynarray_get q1.da i = dynarray_get q.da i) ∧ q1 = q) ∧
    (∃ q1, pq_max_priority_call q = some (root.priority, q1) ∧
      dynarray_length q1.da = dynarray_length q.da ∧
      (∀ i, dynarray_get q1.da i = dynarray_get q.da i) ∧ q1 = q) := by
  refine ⟨by simp [pq_max, hroot], by simp [pq_max_priority, hroot],
    ⟨q, by simp [pq_max_call, hroot], rfl, fun _ => rfl, rfl⟩,
    ⟨q, by simp [pq_max_priority_call, hroot], rfl, fun _ => rfl, rfl⟩⟩

/-- Witness for C11 at the queue with priorities `9, 5, 7`. -/
theorem pq_max_reads_root_witness :
    pq_max { da := [⟨1, 9⟩, ⟨2, 5⟩, ⟨3, 7⟩] } = some 1 ∧
    pq_max_priority { da := [⟨1, 9⟩, ⟨2, 5⟩, ⟨3, 7⟩] } = some 9 ∧
    (∃ q1, pq_max_call { da := [⟨1, 9⟩, ⟨2, 5⟩, ⟨3, 7⟩] } = some (1, q1) ∧
      dynarray_length q1.da = 3 ∧
      (∀ i, dynarray_get q1.da i = dynarray_get [⟨1, 9⟩, ⟨2, 5⟩, ⟨3, 7⟩] i) ∧
      q1 = { da := [⟨1, 9⟩, ⟨2, 5⟩, ⟨3, 7⟩] }) ∧
    (∃ q1, pq_max_priority_call { da := [⟨1, 9⟩, ⟨2, 5⟩, ⟨3, 7⟩] } = some (9, q1) ∧
      dynarray_length q1.da = 3 ∧
      (∀ i, dynarray_get q1.da i = dynarray_get [⟨1, 9⟩, ⟨2, 5⟩, ⟨3, 7⟩] i) ∧
      q1 = { da := [⟨1, 9⟩, ⟨2, 5⟩, ⟨3, 7⟩] }) :=
  pq_max_reads_root { da := [⟨1, 9⟩, ⟨2, 5⟩, ⟨3, 7⟩] } ⟨1, 9⟩ (by decide)

theorem percolate_up_fuel_eq (fuel : Nat) : ∀ (da : dynarray) (index : Nat),
    index < fuel → percolate_up_fuel fuel da index = some (percolate_up da index) := by
  induction fuel with
  | zero =>
    intro da index h
    omega
  | succ fuel ih =>
    intro da index h
    rw [percolate_up, percolate_up_fuel]
    by_cases h0 : index = 0
    · simp [h0]
    · simp only [h0, if_false]
      cases dynarray_get da index with
      | none => rfl
      | some current =>
        cases dynarray_get da ((index - 1) / 2) with
        | none => rfl
        | some parent_node =>
          simp only
          split
          · cases swap_nodes da index ((index - 1) / 2) with
            | none => rfl
            | some da1 => exact ih da1 ((index - 1) / 2) (by omega)
          · rfl

theorem swap_nodes_length {da da1 : dynarray} {a b : Nat}
    (h : swap_nodes da a b = some da1) : da1.length = da.length := by
  unfold swap_nodes at h
  cases ha : dynarray_get da a with
  | none => simp [ha] at h
  | some x =>
    cases hb : dynarray_get da b with
    | none => simp [ha, hb] at h
    | some y =>
      obtain ⟨da2, h2, hlen, -, -⟩ :=
        swap_nodes_spec da a b (dynarray_get_lt ha) (dynarray_get_lt hb)
      unfold swap_nodes at h2
      rw [h] at h2
      cases h2
      exact hlen

theorem percolate_down_highest_cases (da : dynarray) (index : Nat) (current : node) :
    percolate_down_highest da index current = index ∨
    percolate_down_highest da index current = 2 * index + 1 ∨
    percolate_down_highest da index current = 2 * index + 2 := by
  unfold percolate_down_highest
  simp only
  repeat' split
  all_goals simp

theorem percolate_down_fuel_eq (fuel : Nat) : ∀ (da : dynarray) (index : Nat),
    da.length - index < fuel →
    percolate_down_fuel fuel da index = some (percolate_down da index) := by
  induction fuel with
  | zero =>
    intro da index h
    omega
  | succ fuel ih =>
    intro da index h
    rw [percolate_down_eq, percolate_down_fuel]
    cases hget : dynarray_get da index with
    | none => rfl
    | some current =>
      simp only
      have hidx := dynarray_get_lt hget
      split
      · rename_i hne
        cases hsw : swap_nodes da index (percolate_down_highest da index current) with
        | none => rfl
        | some da1 =>
          simp only
          have hlen := swap_nodes_length hsw
          have hc := percolate_down_highest_cases da index current
          exact ih da1 _ (by omega)
      · rfl

/-- C12: every operation terminates.  The recursion of `percolate_up` from any
index ends within `index + 1` nested calls, the index strictly decreasing to
the parent `(index-1)/2` until the root; the recursion of `percolate_down` from
an index below the length ends within `length - index + 1` nested calls, the
index strictly increasing to a child below the length; each produces an array
when started below the length; so `pq_insert` and `pq_max_dequeue` return on
every queue. -/
theorem operations_terminate :
    (∀ (da : dynarray) (index fuel : Nat), index < fuel →
      percolate_up_fuel fuel da index = some (percolate_up da index)) ∧
    (∀ index : Nat, index ≠ 0 → (index - 1) / 2 < index) ∧
    (∀ (da : dynarray) (index fuel : Nat), dynarray_length da - index < fuel →
      percolate_down_fuel fuel da index = some (percolate_down da index)) ∧
    (∀ (da : dynarray) (index : Nat) (current : node),
      dynarray_get da index = some current →
      percolate_down_highest da index current ≠ index →
      index < percolate_down_highest da index current ∧
      percolate_down_highest da index current < dynarray_length da) ∧
    (∀ (da : dynarray) (index : Nat), index < dynarray_length da →
      (∃ da1, percolate_up da index = some da1) ∧
      (∃ da1, percolate_down da index = some da1)) ∧
    (∀ (q : pq) (d : Nat) (p : Int), ∃ q1, pq_insert q d p = some q1) ∧
    (∀ q : pq, ∃ r q1, pq_max_dequeue q = some (r, q1)) := by
  refine ⟨fun da index fuel h => percolate_up_fuel_eq fuel da index h,
    fun index h => by omega,
    fun da index fuel h => percolate_down_fuel_eq fuel da index h, ?_, ?_, ?_,
    pq_max_dequeue_returns⟩
  · intro da index current hget hne
    have hidx := dynarray_get_lt hget
    have hx : current = da[index] := by
      rw [dynarray_get_of_lt hidx] at hget
      cases hget
      rfl
    subst hx
    unfold dynarray_length
    rcases percolate_down_highest_spec da index hidx with ⟨he, -⟩ | ⟨hc, hlt, -, -⟩
    · exact absurd he hne
    · exact ⟨by omega, hlt⟩
  · intro da index hidx
    obtain ⟨da1, h1, -, -⟩ := percolate_up_some index da hidx
    obtain ⟨da2, h2, -, -⟩ := percolate_down_some da.length da index (by omega) hidx
    exact ⟨⟨da1, h1⟩, ⟨da2, h2⟩⟩
  · intro q d p
    obtain ⟨q1, h1, -, -⟩ := pq_insert_spec q d p
    exact ⟨q1, h1⟩

/-- Witness for C12: `percolate_up` from index 2 of the array with priorities
`5, 1, 9` ends within three nested calls. -/
theorem operations_terminate_witness :
    percolate_up_fuel 3 [⟨1, 5⟩, ⟨2, 1⟩, ⟨3, 9⟩] 2 =
      some (percolate_up [⟨1, 5⟩, ⟨2, 1⟩, ⟨3, 9⟩] 2) :=
  operations_terminate.1 [⟨1, 5⟩, ⟨2, 1⟩, ⟨3, 9⟩] 2 3 (by decide)

/-! ### The checked child reads of `percolate_down` -/

theorem percolate_down_highest_checked_eq (da : dynarray) (index : Nat) (current : node) :
    percolate_down_highest_checked da index current =
      some (percolate_down_highest da index current) := by
  unfold percolate_down_highest_checked percolate_down_highest
  simp only [dynarray_length]
  by_cases hl : 2 * index + 1 < da.length
  · by_cases hr : 2 * index + 2 < da.length
    · simp only [hl, hr, if_true, dynarray_get_of_lt hl, dynarray_get_of_lt hr]
      split_ifs <;> rfl
    · simp only [hl, hr, if_true, if_false, dynarray_get_of_lt hl]
  · have hr : ¬ 2 * index + 2 < da.length := by omega
    simp only [hl, hr, if_false]

theorem percolate_down_checked_unfold (da : dynarray) (index : Nat) :
    percolate_down_checked da index =
      match dynarray_get da index with
      | none => none
      | some current =>
        match percolate_down_highest_checked da index current with
        | none => none
        | some highest =>
          if highest ≠ index then
            match swap_nodes da index highest with
            | none => none
            | some da1 => percolate_down_checked da1 highest
          else some da := by
  rw [percolate_down_checked]
  split <;> rename_i h
  · simp [h]
  · simp only [h]
    split <;> rename_i h2
    · simp [h2]
    · simp only [h2]
      split
      · split <;> rename_i h3 <;> simp [h3]
      · rfl

theorem percolate_down_checked_eq (n : Nat) : ∀ (da : dynarray) (index : Nat),
    da.length - index ≤ n → percolate_down_checked da index = percolate_down da index := by
  induction n using Nat.strong_induction_on with
  | _ n ih =>
    intro da index hn
    rw [percolate_down_checked_unfold, percolate_down_eq]
    cases hget : dynarray_get da index with
    | none => rfl
    | some current =>
      simp only [percolate_down_highest_checked_eq]
      have hidx := dynarray_get_lt hget
      split
      · cases hsw : swap_nodes da index (percolate_down_highest da index current) with
        | none => rfl
        | some da1 =>
          simp only
          have hlen := swap_nodes_length hsw
          have hc := percolate_down_highest_cases da index current
          exact ih (da1.length - percolate_down_highest da index current) (by omega) da1 _
            (le_refl _)
      · rfl

theorem pq_max_dequeue_checked_eq (q : pq) :
    pq_max_dequeue_checked q = pq_max_dequeue q := by
  unfold pq_max_dequeue_checked pq_max_dequeue
  split
  · rfl
  · cases dynarray_get q.da 0 with
    | none => rfl
    | some max_node =>
      simp only
      cases swap_nodes q.da 0 (dynarray_length q.da - 1) with
      | none => rfl
      | some da1 =>
        simp only
        cases dynarray_remove da1 with
        | none => rfl
        | some da2 =>
          simp only
          rw [percolate_down_checked_eq da2.length da2 0 (by omega)]

/-- C15: all array accesses stay in bounds.  A `dynarray_get` or `dynarray_set`
succeeds exactly at an index below the length, and an operation returns a
result only when every access it made succeeded: `swap_nodes`, `percolate_up`
and `percolate_down` do so from indices below the length, `pq_insert` on every
queue, and `pq_max`, `pq_max_priority` and `pq_max_dequeue` on every non-empty
queue; a child index that `percolate_down` finds below the length is read in
bounds.  An index at or beyond the length makes `percolate_up` and
`percolate_down` fail, and so does an empty queue for `pq_max` and
`pq_max_priority`.  With the two child reads of `percolate_down` checked as
well, no child read fails: the checked selection always returns the index the
code selects, `percolate_down_checked` and `pq_max_dequeue_checked` are
`percolate_down` and `pq_max_dequeue`, and they return a result from an index
below the length and on every queue. -/
theorem accesses_in_bounds :
    (∀ (da : dynarray) (i : Nat),
      ((∃ x, dynarray_get da i = some x) ↔ i < dynarray_length da) ∧
      ∀ v, ((∃ da1, dynarray_set da i v = some da1) ↔ i < dynarray_length da)) ∧
    (∀ (da : dynarray) (a b : Nat), a < dynarray_length da → b < dynarray_length da →
      ∃ da1, swap_nodes da a b = some da1) ∧
    (∀ (da : dynarray) (k : Nat), k < dynarray_length da →
      (∃ da1, percolate_up da k = some da1) ∧
      (∃ da1, percolate_down da k = some da1) ∧
      (2 * k + 1 < dynarray_length da → ∃ x, dynarray_get da (2 * k + 1) = some x) ∧
      (2 * k + 2 < dynarray_length da → ∃ x, dynarray_get da (2 * k + 2) = some x)) ∧
    (∀ (q : pq) (d : Nat) (p : Int), ∃ q1, pq_insert q d p = some q1) ∧
    (∀ q : pq, pq_isempty q = 0 →
      (∃ v, pq_max q = some v) ∧ (∃ p, pq_max_priority q = some p) ∧
      ∃ r q1, pq_max_dequeue q = some (r, q1)) ∧
    (∀ (da : dynarray) (k : Nat), dynarray_length da ≤ k →
      (k ≠ 0 → percolate_up da k = none) ∧ percolate_down da k = none) ∧
    (∀ q : pq, pq_isempty q = 1 → pq_max q = none ∧ pq_max_priority q = none) ∧
    (∀ (da : dynarray) (k : Nat) (current : node),
      percolate_down_highest_checked da k current =
        some (percolate_down_highest da k current)) ∧
    (∀ (da : dynarray) (k : Nat),
      percolate_down_checked da k = percolate_down da k ∧
      (k < dynarray_length da → ∃ da1, percolate_down_checked da k = some da1)) ∧
    (∀ q : pq, pq_max_dequeue_checked q = pq_max_dequeue q ∧
      ∃ r q1, pq_max_dequeue_checked q = some (r, q1)) := by
  refine ⟨?_, ?_, ?_, ?_, ?_, ?_, ?_, percolate_down_highest_checked_eq, ?_, ?_⟩
  · intro da i
    constructor
    · constructor
      · rintro ⟨x, hx⟩
        exact dynarray_get_lt hx
      · intro h
        exact ⟨_, dynarray_get_of_lt h⟩
    · intro v
      unfold dynarray_set dynarray_length
      constructor
      · rintro ⟨da1, h1⟩
        by_contra hcon
        rw [if_neg hcon] at h1
        cases h1
      · intro h
        exact ⟨_, if_pos h⟩
  · intro da a b ha hb
    obtain ⟨da1, h1, -⟩ := swap_nodes_spec da a b ha hb
    exact ⟨da1, h1⟩
  · intro da k hk
    obtain ⟨da1, h1, -, -⟩ := percolate_up_some k da hk
    obtain ⟨da2, h2, -, -⟩ := percolate_down_some da.length da k (by omega) hk
    exact ⟨⟨da1, h1⟩, ⟨da2, h2⟩, fun h => ⟨_, dynarray_get_of_lt h⟩,
      fun h => ⟨_, dynarray_get_of_lt h⟩⟩
  · intro q d p
    obtain ⟨q1, h1, -, -⟩ := pq_insert_spec q d p
    exact ⟨q1, h1⟩
  · intro q hne
    cases hq : q.da with
    | nil => simp [pq_isempty, dynarray_length, hq] at hne
    | cons root rest =>
      refine ⟨⟨root.data, by simp [pq_max, dynarray_get, hq]⟩,
        ⟨root.priority, by simp [pq_max_priority, dynarray_get, hq]⟩,
        pq_max_dequeue_returns q⟩
  · intro da k hk
    unfold dynarray_length at hk
    have hnone : dynarray_get da k = none := by
      unfold dynarray_get
      exact List.getElem?_eq_none hk
    constructor
    · intro h0
      rw [percolate_up, if_neg h0]
      simp only [hnone]
    · rw [percolate_down_eq]
      simp only [hnone]
  · intro q hq
    have hnil : q.da = [] := by
      unfold pq_isempty dynarray_length at hq
      split at hq
      · rename_i h0
        exact List.eq_nil_of_length_eq_zero h0
      · simp at hq
    simp [pq_max, pq_max_priority, dynarray_get, hnil]
  · intro da k
    have e := percolate_down_checked_eq da.length da k (by omega)
    refine ⟨e, ?_⟩
    intro hk
    unfold dynarray_length at hk
    obtain ⟨da1, h1, -, -⟩ := percolate_down_some da.length da k (by omega) hk
    exact ⟨da1, by rw [e, h1]⟩
  · intro q
    obtain ⟨r, q1, h1⟩ := pq_max_dequeue_returns q
    exact ⟨pq_max_dequeue_checked_eq q, r, q1, by rw [pq_max_dequeue_checked_eq, h1]⟩

/-- Witness for C15: the three reading operations on the queue with priorities
`9, 5, 7`, and the checked `percolate_down` from the root of the array with
priorities `1, 5, 9, 2`. -/
theorem accesses_in_bounds_witness :
    ((∃ v, pq_max { da := [⟨1, 9⟩, ⟨2, 5⟩, ⟨3, 7⟩] } = some v) ∧
      (∃ p, pq_max_priority { da := [⟨1, 9⟩, ⟨2, 5⟩, ⟨3, 7⟩] } = some p) ∧
      ∃ r q1, pq_max_dequeue { da := [⟨1, 9⟩, ⟨2, 5⟩, ⟨3, 7⟩] } = some (r, q1)) ∧
    ∃ da1, percolate_down_checked [⟨1, 1⟩, ⟨2, 5⟩, ⟨3, 9⟩, ⟨4, 2⟩] 0 = some da1 :=
  ⟨accesses_in_bounds.2.2.2.2.1 { da := [⟨1, 9⟩, ⟨2, 5⟩, ⟨3, 7⟩] } (by decide),
    (accesses_in_bounds.2.2.2.2.2.2.2.2.1 [⟨1, 1⟩, ⟨2, 5⟩, ⟨3, 9⟩, ⟨4, 2⟩] 0).2
      (by decide)⟩

/-- C16: the effect of an insert on the maximum.  On a non-empty queue that
satisfies the max-heap property, with `root` at index 0, after
`pq_insert(d, p)`: when `p` is strictly greater than the previous
`pq_max_priority`, `pq_max` returns `d` and `pq_max_priority` returns `p`;
otherwise the element at index 0 is still `root`, and `pq_max` and
`pq_max_priority` return what they returned before the insert. -/
theorem pq_insert_max_effect (q : pq) (root : node) (d : Nat) (p : Int)
    (hroot : dynarray_get q.da 0 = some root) (h : is_heap q.da) :
    pq_max_priority q = some root.priority ∧
    ∃ q1, pq_insert q d p = some q1 ∧
      (p > root.priority → pq_max q1 = some d ∧ pq_max_priority q1 = some p) ∧
      (p ≤ root.priority → dynarray_get q1.da 0 = some root ∧
        pq_max q1 = pq_max q ∧ pq_max_priority q1 = pq_max_priority q) := by
  obtain ⟨rest, hq⟩ := dynarray_get_zero hroot
  obtain ⟨q1, hins, hlen, hperm⟩ := pq_insert_spec q d p
  have hheap1 := pq_insert_heap q q1 d p h hins
  refine ⟨by simp [pq_max_priority, hroot], q1, hins, ?_, ?_⟩
  all_goals
    have hup : percolate_up (q.da ++ [{ data := d, priority := p }]) q.da.length =
        some q1.da := by
      unfold pq_insert at hins
      simp only [dynarray_insert, dynarray_length, List.length_append,
        List.length_singleton, Nat.add_sub_cancel] at hins
      split at hins
      · cases hins
      · rename_i da2 hup
        cases hins
        exact hup
    have hr := percolate_up_root q.da.length _ q1.da (by simp) hup
    have e0 : (q.da ++ [{ data := d, priority := p }])[0]? = some root := by
      rw [hq]
      simp
    have en : (q.da ++ [{ data := d, priority := p }])[q.da.length]? =
        some { data := d, priority := p } := by
      simp
    have p0 : priority_at (q.da ++ [{ data := d, priority := p }]) 0 = root.priority := by
      unfold priority_at
      rw [e0]
    have pn : priority_at (q.da ++ [{ data := d, priority := p }]) q.da.length = p := by
      unfold priority_at
      rw [en]
    rw [e0, en, p0, pn] at hr
  · intro hgt
    rcases hr with e | ⟨e, -⟩
    · exfalso
      cases hq1 : q1.da with
      | nil => rw [hq1] at e; simp at e
      | cons r1 rest1 =>
        rw [hq1] at e hheap1 hperm
        simp only [List.getElem?_cons_zero, Option.some.injEq] at e
        subst e
        have hmem : ({ data := d, priority := p } : node) ∈ r1 :: rest1 :=
          hperm.symm.subset (List.mem_cons_self _ _)
        have := is_heap_mem_le r1 rest1 hheap1 _ hmem
        simp only at this
        omega
    · simp [pq_max, pq_max_priority, dynarray_get, e]
  · intro hle
    rcases hr with e | ⟨-, egt⟩
    · simp [pq_max, pq_max_priority, dynarray_get, e, hq]
    · omega

/-- Witness for C16: the insert of priority 12 into the heap with priorities
`9, 5, 7`. -/
theorem pq_insert_max_effect_witness :
    pq_max_priority { da := [⟨1, 9⟩, ⟨2, 5⟩, ⟨3, 7⟩] } = some 9 ∧
    ∃ q1, pq_insert { da := [⟨1, 9⟩, ⟨2, 5⟩, ⟨3, 7⟩] } 4 12 = some q1 ∧
      ((12 : Int) > 9 → pq_max q1 = some 4 ∧ pq_max_priority q1 = some 12) ∧
      ((12 : Int) ≤ 9 → dynarray_get q1.da 0 = some ⟨1, 9⟩ ∧
        pq_max q1 = pq_max { da := [⟨1, 9⟩, ⟨2, 5⟩, ⟨3, 7⟩] } ∧
        pq_max_priority q1 = pq_max_priority { da := [⟨1, 9⟩, ⟨2, 5⟩, ⟨3, 7⟩] }) :=
  pq_insert_max_effect { da := [⟨1, 9⟩, ⟨2, 5⟩, ⟨3, 7⟩] } ⟨1, 9⟩ 4 12 (by decide)
    (by decide)

/-- C18: on a queue in which no stored element has a `NULL` payload,
`pq_max_dequeue` returns `NULL` exactly when the queue is empty, and a result
other than `NULL` is the payload of a stored element. -/
theorem pq_max_dequeue_null_iff_empty (q : pq) (hnn : ∀ x ∈ q.da, x.data ≠ NULL) :
    ∃ r q1, pq_max_dequeue q = some (r, q1) ∧
      (r = NULL ↔ pq_isempty q = 1) ∧
      (r ≠ NULL → ∃ x ∈ q.da, x.data = r) := by
  cases hq : q.da with
  | nil =>
    refine ⟨NULL, q, pq_max_dequeue_empty q hq, ?_, fun h => absurd rfl h⟩
    simp [pq_isempty, dynarray_length, hq]
  | cons root rest =>
    obtain ⟨q1, hdq, -, -⟩ := pq_max_dequeue_spec q root rest hq
    have hmem : root ∈ q.da := by
      rw [hq]
      exact List.mem_cons_self _ _
    refine ⟨root.data, q1, hdq, ?_, fun _ => ⟨root, List.mem_cons_self _ _, rfl⟩⟩
    constructor
    · intro h
      exact absurd h (hnn root hmem)
    · intro h
      simp [pq_isempty, dynarray_length, hq] at h

/-- Witness for C18 at the queue with payloads `1, 2, 3`. -/
theorem pq_max_dequeue_null_iff_empty_witness :
    ∃ r q1, pq_max_dequeue { da := [⟨1, 9⟩, ⟨2, 5⟩, ⟨3, 7⟩] } = some (r, q1) ∧
      (r = NULL ↔ pq_isempty { da := [⟨1, 9⟩, ⟨2, 5⟩, ⟨3, 7⟩] } = 1) ∧
      (r ≠ NULL → ∃ x ∈ [(⟨1, 9⟩ : node), ⟨2, 5⟩, ⟨3, 7⟩], x.data = r) :=
  pq_max_dequeue_null_iff_empty { da := [⟨1, 9⟩, ⟨2, 5⟩, ⟨3, 7⟩] } (by decide)

/-! ### Subtrees and ancestors -/

theorem in_subtree_fuel_irrel (root : Nat) (f1 : Nat) : ∀ (f2 j : Nat),
    j ≤ f1 → j ≤ f2 → in_subtree_fuel f1 root j = in_subtree_fuel f2 root j := by
  induction f1 with
  | zero =>
    intro f2 j h1 h2
    have hj : j = 0 := by omega
    subst hj
    cases f2 with
    | zero => rfl
    | succ f2 => simp [in_subtree_fuel]
  | succ f1 ih =>
    intro f2 j h1 h2
    cases f2 with
    | zero =>
      have hj : j = 0 := by omega
      subst hj
      simp [in_subtree_fuel]
    | succ f2 =>
      simp only [in_subtree_fuel]
      by_cases hj : 0 < j
      · rw [ih f2 ((j - 1) / 2) (by omega) (by omega)]
      · simp [hj]

theorem in_subtree_iff (root j : Nat) :
    in_subtree root j ↔ j = root ∨ (0 < j ∧ in_subtree root ((j - 1) / 2)) := by
  unfold in_subtree
  cases j with
  | zero => simp [in_subtree_fuel]
  | succ j =>
    rw [in_subtree_fuel, in_subtree_fuel_irrel root j ((j + 1 - 1) / 2) ((j + 1 - 1) / 2)
      (by omega) (le_refl _)]
    simp

theorem in_subtree_refl (root : Nat) : in_subtree root root :=
  (in_subtree_iff root root).mpr (Or.inl rfl)

theorem in_subtree_le (root : Nat) (j : Nat) : in_subtree root j → root ≤ j := by
  induction j using Nat.strong_induction_on with
  | _ j ih =>
    intro h
    rcases (in_subtree_iff root j).mp h with e | ⟨hpos, hp⟩
    · omega
    · have := ih ((j - 1) / 2) (by omega) hp
      omega

theorem in_subtree_parent (c : Nat) (hc : 0 < c) (j : Nat) :
    in_subtree c j → in_subtree ((c - 1) / 2) j := by
  induction j using Nat.strong_induction_on with
  | _ j ih =>
    intro h
    rcases (in_subtree_iff c j).mp h with e | ⟨hpos, hp⟩
    · subst e
      exact (in_subtree_iff _ _).mpr (Or.inr ⟨hc, in_subtree_refl _⟩)
    · exact (in_subtree_iff _ _).mpr (Or.inr ⟨hpos, ih ((j - 1) / 2) (by omega) hp⟩)

theorem in_subtree_split (root : Nat) (j : Nat) : in_subtree root j → j ≠ root →
    in_subtree (2 * root + 1) j ∨ in_subtree (2 * root + 2) j := by
  induction j using Nat.strong_induction_on with
  | _ j ih =>
    intro h hne
    rcases (in_subtree_iff root j).mp h with e | ⟨hpos, hp⟩
    · exact absurd e hne
    · by_cases hpar : (j - 1) / 2 = root
      · have hj : j = 2 * root + 1 ∨ j = 2 * root + 2 := by omega
        rcases hj with e | e
        · left
          rw [e]
          exact in_subtree_refl _
        · right
          rw [e]
          exact in_subtree_refl _
      · rcases ih ((j - 1) / 2) (by omega) hp hpar with h1 | h1
        · exact Or.inl ((in_subtree_iff _ _).mpr (Or.inr ⟨hpos, h1⟩))
        · exact Or.inr ((in_subtree_iff _ _).mpr (Or.inr ⟨hpos, h1⟩))

theorem percolate_up_frame (k : Nat) : ∀ da da2 : dynarray, k < da.length →
    percolate_up da k = some da2 → ∀ j, ¬ in_subtree j k → da2[j]? = da[j]? := by
  induction k using Nat.strong_induction_on with
  | _ k ih =>
    intro da da2 hk hres j hj
    rw [percolate_up] at hres
    by_cases h0 : k = 0
    · simp only [h0, if_true, Option.some.injEq] at hres
      subst hres
      rfl
    · have hp : (k - 1) / 2 < da.length := by omega
      simp only [h0, if_false, dynarray_get_of_lt hk, dynarray_get_of_lt hp] at hres
      split at hres
      · obtain ⟨da1, hsw, hlen, hget, -⟩ := swap_nodes_spec da k ((k - 1) / 2) hk hp
        simp only [hsw] at hres
        have hjk : j ≠ k := by
          intro e
          exact hj (e ▸ in_subtree_refl j)
        have hjp : ¬ in_subtree j ((k - 1) / 2) := by
          intro e
          exact hj ((in_subtree_iff j k).mpr (Or.inr ⟨by omega, e⟩))
        have hjp2 : j ≠ (k - 1) / 2 := by
          intro e
          exact hjp (e ▸ in_subtree_refl j)
        rw [ih ((k - 1) / 2) (by omega) da1 da2 (by omega) hres j hjp, hget,
          if_neg hjp2, if_neg hjk]
      · simp only [Option.some.injEq] at hres
        subst hres
        rfl

/-- C17: `pq_insert` only touches the path from the new leaf to the root.  On a
queue of length `n`, at every index `j < n` that is not an ancestor of `n`
under the parent map `i -> (i-1)/2`, the element after `pq_insert` is the
element that was there before. -/
theorem pq_insert_frame (q : pq) (d : Nat) (p : Int) (j : Nat)
    (hj : j < dynarray_length q.da) (hanc : ¬ in_subtree j (dynarray_length q.da)) :
    ∃ q1, pq_insert q d p = some q1 ∧ dynarray_get q1.da j = dynarray_get q.da j := by
  unfold dynarray_length at hj hanc
  obtain ⟨q1, hins, -, -⟩ := pq_insert_spec q d p
  refine ⟨q1, hins, ?_⟩
  have hup : percolate_up (q.da ++ [{ data := d, priority := p }]) q.da.length =
      some q1.da := by
    unfold pq_insert at hins
    simp only [dynarray_insert, dynarray_length, List.length_append,
      List.length_singleton, Nat.add_sub_cancel] at hins
    split at hins
    · cases hins
    · rename_i da2 hup
      cases hins
      exact hup
  unfold dynarray_get
  rw [percolate_up_frame q.da.length _ q1.da (by simp) hup j hanc,
    List.getElem?_append_left hj]

/-- Witness for C17: index 2 is not an ancestor of the new leaf 3 in the queue
with priorities `9, 5, 7`. -/
theorem pq_insert_frame_witness :
    ∃ q1, pq_insert { da := [⟨1, 9⟩, ⟨2, 5⟩, ⟨3, 7⟩] } 4 12 = some q1 ∧
      dynarray_get q1.da 2 = dynarray_get [⟨1, 9⟩, ⟨2, 5⟩, ⟨3, 7⟩] 2 :=
  pq_insert_frame { da := [⟨1, 9⟩, ⟨2, 5⟩, ⟨3, 7⟩] } 4 12 2 (by decide) (by decide)

/-! ### Child selection in `percolate_down` -/

theorem percolate_down_highest_eq (da : dynarray) (i : Nat) (hi : i < da.length) :
    percolate_down_highest da i da[i] =
      if 2 * i + 1 < da.length ∧ priority_at da (2 * i + 1) > priority_at da i then
        (if 2 * i + 2 < da.length ∧
            priority_at da (2 * i + 2) > priority_at da (2 * i + 1) then 2 * i + 2
          else 2 * i + 1)
      else
        (if 2 * i + 2 < da.length ∧ priority_at da (2 * i + 2) > priority_at da i then
          2 * i + 2
        else i) := by
  unfold percolate_down_highest
  simp only [dynarray_length, dynarray_get]
  rw [priority_at_of_lt hi]
  by_cases hl : 2 * i + 1 < da.length
  · have pl := priority_at_of_lt hl
    by_cases hr : 2 * i + 2 < da.length
    · have pr := priority_at_of_lt hr
      simp only [hl, hr, if_true, true_and, List.getElem?_eq_getElem, pl, pr]
      split_ifs <;> rfl
    · simp only [hl, hr, if_true, if_false, true_and, false_and,
        List.getElem?_eq_getElem, pl]
      split_ifs <;> rfl
  · have hr : ¬ 2 * i + 2 < da.length := by omega
    simp only [hl, hr, if_false, false_and]

theorem percolate_down_step_swap (da : dynarray) (i c : Nat) (hi : i < da.length)
    (hc : percolate_down_highest da i da[i] = c) (hne : c ≠ i) (hlt : c < da.length) :
    ∃ da1, percolate_down_step da i = some da1 ∧ is_swap_of da1 da i c ∧
      percolate_down da i = percolate_down da1 c := by
  obtain ⟨da1, hsw, hlen, hget, -⟩ := swap_nodes_spec da i c hi hlt
  refine ⟨da1, ?_, ⟨hlen, hget⟩, ?_⟩
  · unfold percolate_down_step
    simp only [dynarray_get_of_lt hi, hc]
    rw [if_pos hne, hsw]
  · rw [percolate_down_eq]
    simp only [dynarray_get_of_lt hi, hc]
    rw [if_pos hne, hsw]

theorem percolate_down_step_stay (da : dynarray) (i : Nat) (hi : i < da.length)
    (hc : percolate_down_highest da i da[i] = i) :
    percolate_down_step da i = some da ∧ percolate_down da i = some da := by
  constructor
  · unfold percolate_down_step
    simp only [dynarray_get_of_lt hi, hc]
    simp
  · rw [percolate_down_eq]
    simp only [dynarray_get_of_lt hi, hc]
    simp

/-- C14: child selection in `percolate_down`.  From an index `i` below the length,
one step swaps the node at `i` with its left child when the left child exists,
has priority strictly greater than the node's, and the right child is absent or
has priority not strictly greater than the left child's; swaps it with its
right child when the right child exists and has priority strictly greater than
the node's and, if the left child's is greater than the node's, than the left
child's; and otherwise leaves the array unchanged.  So equal priorities never
trigger a swap, and of two children with the same priority exceeding the
node's the left one is chosen. -/
theorem percolate_down_child_selection (da : dynarray) (i : Nat)
    (hi : i < dynarray_length da) :
    (2 * i + 1 < dynarray_length da →
      priority_at da (2 * i + 1) > priority_at da i →
      (dynarray_length da ≤ 2 * i + 2 ∨
        ¬ priority_at da (2 * i + 2) > priority_at da (2 * i + 1)) →
      ∃ da1, percolate_down_step da i = some da1 ∧ is_swap_of da1 da i (2 * i + 1) ∧
        percolate_down da i = percolate_down da1 (2 * i + 1)) ∧
    (2 * i + 2 < dynarray_length da →
      priority_at da (2 * i + 2) > priority_at da i →
      (priority_at da (2 * i + 1) > priority_at da i →
        priority_at da (2 * i + 2) > priority_at da (2 * i + 1)) →
      ∃ da1, percolate_down_step da i = some da1 ∧ is_swap_of da1 da i (2 * i + 2) ∧
        percolate_down da i = percolate_down da1 (2 * i + 2)) ∧
    (¬ (2 * i + 1 < dynarray_length da ∧
          priority_at da (2 * i + 1) > priority_at da i ∧
          (dynarray_length da ≤ 2 * i + 2 ∨
            ¬ priority_at da (2 * i + 2) > priority_at da (2 * i + 1))) →
      ¬ (2 * i + 2 < dynarray_length da ∧
          priority_at da (2 * i + 2) > priority_at da i ∧
          (priority_at da (2 * i + 1) > priority_at da i →
            priority_at da (2 * i + 2) > priority_at da (2 * i + 1))) →
      percolate_down_step da i = some da ∧ percolate_down da i = some da) ∧
    ((∀ c, c = 2 * i + 1 ∨ c = 2 * i + 2 → c < dynarray_length da →
        priority_at da c ≤ priority_at da i) →
      percolate_down_step da i = some da ∧ percolate_down da i = some da) ∧
    (2 * i + 2 < dynarray_length da →
      priority_at da (2 * i + 1) = priority_at da (2 * i + 2) →
      priority_at da (2 * i + 1) > priority_at da i →
      ∃ da1, percolate_down_step da i = some da1 ∧ is_swap_of da1 da i (2 * i + 1)) := by
  unfold dynarray_length at *
  have heq := percolate_down_highest_eq da i hi
  refine ⟨?_, ?_, ?_, ?_, ?_⟩
  · intro hl hgt hr
    refine percolate_down_step_swap da i _ hi ?_ (by omega) hl
    rw [heq, if_pos ⟨hl, hgt⟩, if_neg (by omega)]
  · intro hr hgt himp
    refine percolate_down_step_swap da i _ hi ?_ (by omega) hr
    rw [heq]
    by_cases hl : 2 * i + 1 < da.length ∧ priority_at da (2 * i + 1) > priority_at da i
    · rw [if_pos hl, if_pos ⟨hr, himp hl.2⟩]
    · rw [if_neg hl, if_pos ⟨hr, hgt⟩]
  · intro hnl hnr
    refine percolate_down_step_stay da i hi ?_
    rw [heq]
    split_ifs <;> first | rfl | (exfalso; omega)
  · intro hall
    refine percolate_down_step_stay da i hi ?_
    have h1 := hall (2 * i + 1) (Or.inl rfl)
    have h2 := hall (2 * i + 2) (Or.inr rfl)
    rw [heq]
    split_ifs <;> first | rfl | (exfalso; omega)
  · intro hr he hgt
    obtain ⟨da1, h1, h2, -⟩ := percolate_down_step_swap da i (2 * i + 1) hi
      (by rw [heq, if_pos ⟨by omega, hgt⟩, if_neg (by omega)]) (by omega) (by omega)
    exact ⟨da1, h1, h2⟩

/-- Witness for C14: both children have priority 5 above the node's 1, and the
step exchanges the node with the left child. -/
theorem percolate_down_child_selection_witness :
    ∃ da1, percolate_down_step [⟨1, 1⟩, ⟨2, 5⟩, ⟨3, 5⟩] 0 = some da1 ∧
      is_swap_of da1 [⟨1, 1⟩, ⟨2, 5⟩, ⟨3, 5⟩] 0 (2 * 0 + 1) :=
  (percolate_down_child_selection [⟨1, 1⟩, ⟨2, 5⟩, ⟨3, 5⟩] 0 (by decide)).2.2.2.2
    (by decide) (by decide) (by decide)

/-! ### Elements selected by index -/

theorem filterMap_range_getElem (da : dynarray) :
    (List.range da.length).filterMap (fun i => da[i]?) = da := by
  induction da using List.reverseRecOn with
  | nil => rfl
  | append_singleton l a ih =>
    rw [List.length_append, List.length_singleton, List.range_succ, List.filterMap_append]
    have h1 : (List.range l.length).filterMap (fun i => (l ++ [a])[i]?) =
        (List.range l.length).filterMap (fun i => l[i]?) := by
      apply List.filterMap_congr
      intro i hi
      rw [List.mem_range] at hi
      exact List.getElem?_append_left hi
    rw [h1, ih]
    simp

theorem elems_at_perm_split (da : dynarray) (keep : Nat → Bool) :
    (elems_at da keep ++ elems_at da (fun j => !keep j)).Perm da := by
  unfold elems_at
  rw [← List.filterMap_append]
  have h := (List.filter_append_perm keep (List.range da.length)).filterMap
    (fun i => da[i]?)
  rw [filterMap_range_getElem] at h
  exact h

theorem elems_at_congr (da da2 : dynarray) (keep : Nat → Bool)
    (hlen : da2.length = da.length) (h : ∀ j, keep j = true → da2[j]? = da[j]?) :
    elems_at da2 keep = elems_at da keep := by
  unfold elems_at
  rw [hlen]
  apply List.filterMap_congr
  intro i hi
  rw [List.mem_filter] at hi
  exact h i hi.2

theorem elems_at_perm_of_frame (da da2 : dynarray) (keep : Nat → Bool)
    (hperm : da2.Perm da) (hout : ∀ j, keep j = false → da2[j]? = da[j]?) :
    (elems_at da2 keep).Perm (elems_at da keep) := by
  have hlen : da2.length = da.length := hperm.length_eq
  have e := elems_at_congr da da2 (fun j => !keep j) hlen (by
    intro j hj
    apply hout
    simpa using hj)
  have h2 := elems_at_perm_split da2 keep
  have h1 := elems_at_perm_split da keep
  rw [e] at h2
  exact (List.perm_append_right_iff _).mp ((h2.trans hperm).trans h1.symm)

/-! ### `percolate_down` inside a subtree -/

theorem percolate_down_subtree (n : Nat) : ∀ (da da2 : dynarray) (k : Nat) (B : Int),
    da.length - k ≤ n → k < da.length →
    (∀ j, j < da.length → in_subtree k j → j ≠ k → (j - 1) / 2 ≠ k →
      priority_at da ((j - 1) / 2) ≥ priority_at da j) →
    priority_at da k ≤ B →
    (∀ c, c < da.length → (c = 2 * k + 1 ∨ c = 2 * k + 2) → priority_at da c ≤ B) →
    percolate_down da k = some da2 →
    (∀ j, j < da.length → in_subtree k j → j ≠ k →
      priority_at da2 ((j - 1) / 2) ≥ priority_at da2 j) ∧
    (∀ j, ¬ in_subtree k j → da2[j]? = da[j]?) ∧
    priority_at da2 k ≤ B := by
  induction n with
  | zero =>
    intro da da2 k B hn hk
    omega
  | succ n ih =>
    intro da da2 k B hn hk hsub hBk hBc hres
    rw [percolate_down_eq, dynarray_get_of_lt hk] at hres
    simp only at hres
    rcases percolate_down_highest_spec da k hk with ⟨he, hall⟩ | ⟨hc, hlt, hgt, hall⟩
    · rw [he] at hres
      simp only [ne_eq, not_true_eq_false, if_false, Option.some.injEq] at hres
      subst hres
      refine ⟨?_, fun _ _ => rfl, hBk⟩
      intro j hj hin hjk
      by_cases hpar : (j - 1) / 2 = k
      · have hk_le := in_subtree_le k j hin
        rw [hpar]
        exact hall j hj (by omega)
      · exact hsub j hj hin hjk hpar
    · generalize percolate_down_highest da k da[k] = c at hc hlt hgt hall hres
      have hne : c ≠ k := by omega
      have hcpos : 0 < c := by omega
      have hck : (c - 1) / 2 = k := by omega
      rw [if_pos hne] at hres
      obtain ⟨da1, hsw, hlen, hget, -⟩ := swap_nodes_spec da k c hk hlt
      rw [hsw] at hres
      simp only at hres
      have hpr := priority_at_swap hget
      have hkc : in_subtree k c :=
        (in_subtree_iff k c).mpr (Or.inr ⟨hcpos, hck ▸ in_subtree_refl _⟩)
      have hup : ∀ j, in_subtree c j → in_subtree k j := by
        intro j hj
        have := in_subtree_parent c hcpos j hj
        rwa [hck] at this
      obtain ⟨r1, r2, r3⟩ := ih da1 da2 c (priority_at da c) (by omega) (by omega)
        (by
          intro j hj hin hjc hpc
          have hj1 : j < da.length := by omega
          have hcj := in_subtree_le c j hin
          have hpin : in_subtree c ((j - 1) / 2) := by
            rcases (in_subtree_iff c j).mp hin with e | ⟨-, e⟩
            · exact absurd e hjc
            · exact e
          have hcp := in_subtree_le c _ hpin
          rw [hpr, hpr, if_neg hpc, if_neg (by omega), if_neg hjc, if_neg (by omega)]
          exact hsub j hj1 (hup j hin) (by omega) (by omega))
        (by
          rw [hpr, if_pos rfl]
          omega)
        (by
          intro i hi hchild
          have hi1 : i < da.length := by omega
          have hic : in_subtree c i :=
            (in_subtree_iff c i).mpr (Or.inr ⟨by omega,
              (by omega : (i - 1) / 2 = c) ▸ in_subtree_refl _⟩)
          have e := hsub i hi1 (hup i hic) (by omega) (by omega)
          rw [(by omega : (i - 1) / 2 = c)] at e
          rw [hpr, if_neg (by omega), if_neg (by omega)]
          exact e)
        hres
      have hk_out : ¬ in_subtree c k := by
        intro e
        have := in_subtree_le c k e
        omega
      have hP2k : priority_at da2 k = priority_at da c := by
        rw [priority_at_congr (r2 k hk_out), hpr, if_neg (Ne.symm hne), if_pos rfl]
      refine ⟨?_, ?_, ?_⟩
      · intro j hj hin hjk
        have hkj := in_subtree_le k j hin
        by_cases hcj : in_subtree c j
        · by_cases hjc : j = c
          · rw [hjc, hck, hP2k]
            exact r3
          · exact r1 j (by omega) hcj hjc
        · have hjc : j ≠ c := by
            intro e
            exact hcj (e ▸ in_subtree_refl c)
          have hpout : ¬ in_subtree c ((j - 1) / 2) := by
            intro e
            exact hcj ((in_subtree_iff c j).mpr (Or.inr ⟨by omega, e⟩))
          have hpc : (j - 1) / 2 ≠ c := by
            intro e
            exact hpout (e ▸ in_subtree_refl c)
          rw [priority_at_congr (r2 j hcj), priority_at_congr (r2 _ hpout), hpr, hpr,
            if_neg hpc, if_neg hjc, if_neg hjk]
          by_cases hpar : (j - 1) / 2 = k
          · rw [if_pos hpar]
            exact hall j hj (by omega)
          · rw [if_neg hpar]
            exact hsub j hj hin hjk hpar
      · intro j hj
        have hjc : ¬ in_subtree c j := fun e => hj (hup j e)
        have hjk : j ≠ k := by
          intro e
          exact hj (e ▸ in_subtree_refl k)
        have hjc2 : j ≠ c := by
          intro e
          exact hj (e ▸ hkc)
        rw [r2 j hjc, hget, if_neg hjc2, if_neg hjk]
      · rw [hP2k]
        exact hBc c hlt hc

/-- C13: `percolate_down` restores the heap below a node.  From an index `i`
below the length whose two child subtrees, those that exist, each satisfy the
max-heap property, `percolate_down(i)` returns an array in which the subtree
rooted at `i` satisfies the max-heap property, the elements of that subtree
are a permutation of what they were, and every position outside that subtree
is unchanged. -/
theorem percolate_down_restores_subtree (da : dynarray) (i : Nat)
    (hi : i < dynarray_length da)
    (hl : subtree_heap da (2 * i + 1)) (hr : subtree_heap da (2 * i + 2)) :
    ∃ da2, percolate_down da i = some da2 ∧
      dynarray_length da2 = dynarray_length da ∧
      subtree_heap da2 i ∧
      (subtree_elems da2 i).Perm (subtree_elems da i) ∧
      ∀ j, ¬ in_subtree i j → dynarray_get da2 j = dynarray_get da j := by
  unfold dynarray_length at *
  obtain ⟨da2, hres, hlen, hperm⟩ := percolate_down_some da.length da i (by omega) hi
  obtain ⟨r1, r2, -⟩ := percolate_down_subtree da.length da da2 i
    (max (priority_at da i) (max (priority_at da (2 * i + 1)) (priority_at da (2 * i + 2))))
    (by omega) hi
    (by
      intro j hj hin hji hpar
      rcases in_subtree_split i j hin hji with h1 | h1
      · exact hl j hj h1 (by omega)
      · exact hr j hj h1 (by omega))
    (le_max_left _ _)
    (by
      rintro c - (rfl | rfl)
      · exact le_trans (le_max_left _ _) (le_max_right _ _)
      · exact le_trans (le_max_right _ _) (le_max_right _ _))
    hres
  refine ⟨da2, hres, hlen, ?_, ?_, r2⟩
  · intro j hj hin hji
    exact r1 j (by omega) hin hji
  · unfold subtree_elems
    apply elems_at_perm_of_frame da da2 _ hperm
    intro j hj
    apply r2
    simpa using hj

/-- Witness for C13: index 1 of the array with priorities `9, 1, 8, 5, 3`, whose
children at the indices 3 and 4 are leaves. -/
theorem percolate_down_restores_subtree_witness :
    ∃ da2, percolate_down [⟨1, 9⟩, ⟨2, 1⟩, ⟨3, 8⟩, ⟨4, 5⟩, ⟨5, 3⟩] 1 = some da2 ∧
      dynarray_length da2 = dynarray_length [⟨1, 9⟩, ⟨2, 1⟩, ⟨3, 8⟩, ⟨4, 5⟩, ⟨5, 3⟩] ∧
      subtree_heap da2 1 ∧
      (subtree_elems da2 1).Perm
        (subtree_elems [⟨1, 9⟩, ⟨2, 1⟩, ⟨3, 8⟩, ⟨4, 5⟩, ⟨5, 3⟩] 1) ∧
      ∀ j, ¬ in_subtree 1 j →
        dynarray_get da2 j = dynarray_get [⟨1, 9⟩, ⟨2, 1⟩, ⟨3, 8⟩, ⟨4, 5⟩, ⟨5, 3⟩] j :=
  percolate_down_restores_subtree [⟨1, 9⟩, ⟨2, 1⟩, ⟨3, 8⟩, ⟨4, 5⟩, ⟨5, 3⟩] 1 (by decide)
    (by decide) (by decide)
